import Mathlib

/-!
Verification development for the recipe-management API
(app/recipe/serializers.py and its endpoints).

The data model is a shallow embedding of the Django models used by the
serializers: `Tag` and `Ingredient` rows carry an id, an owning user and a
name; `Recipe` rows carry the scalar fields of the model plus many-to-many
association lists (lists of ids, kept duplicate-free by `add`, matching the
set semantics of Django many-to-many relations).  The database is a record
of the three tables together with the auto-increment counters.
-/

structure Tag where
  id : Nat
  user : Nat
  name : String
deriving DecidableEq, Repr

structure Ingredient where
  id : Nat
  user : Nat
  name : String
deriving DecidableEq, Repr

structure Recipe where
  id : Nat
  user : Nat
  title : String
  time_minutes : Nat
  price : Int
  link : String
  description : String
  tags : List Nat
  ingredients : List Nat
deriving DecidableEq, Repr

structure DB where
  tags : List Tag
  ingredients : List Ingredient
  recipes : List Recipe
  nextTagId : Nat
  nextIngredientId : Nat
  nextRecipeId : Nat
deriving DecidableEq, Repr

/-- Lookup of a recipe row by primary key. -/
def DB.findRecipe (db : DB) (rid : Nat) : Option Recipe :=
  db.recipes.find? (fun r => r.id == rid)

/-- Tag lookup used by `Tag.objects.get_or_create(user=auth_user, **tag)`:
the first tag row matching the given owner and name. -/
def DB.findTag (db : DB) (u : Nat) (n : String) : Option Tag :=
  db.tags.find? (fun t => t.user == u && t.name == n)

/-- Ingredient lookup used by
`Ingredient.objects.get_or_create(user=auth_user, **item)`. -/
def DB.findIngredient (db : DB) (u : Nat) (n : String) : Option Ingredient :=
  db.ingredients.find? (fun i => i.user == u && i.name == n)

/-- Embedding of `Tag.objects.get_or_create(user=auth_user, name=n)`:
return the id of the existing row when one matches, otherwise insert a
fresh row and return its id. -/
def getOrCreateTag (db : DB) (u : Nat) (n : String) : DB × Nat :=
  match db.findTag u n with
  | some t => (db, t.id)
  | none =>
      ({ db with
          tags := db.tags ++ [⟨db.nextTagId, u, n⟩],
          nextTagId := db.nextTagId + 1 }, db.nextTagId)

/-- Embedding of `Ingredient.objects.get_or_create(user=auth_user, name=n)`. -/
def getOrCreateIngredient (db : DB) (u : Nat) (n : String) : DB × Nat :=
  match db.findIngredient u n with
  | some i => (db, i.id)
  | none =>
      ({ db with
          ingredients := db.ingredients ++ [⟨db.nextIngredientId, u, n⟩],
          nextIngredientId := db.nextIngredientId + 1 }, db.nextIngredientId)

/-- Django many-to-many `add`: a no-op when the id is already associated. -/
def mmAdd (xs : List Nat) (x : Nat) : List Nat :=
  if x ∈ xs then xs else xs ++ [x]

/-- Apply a function to every recipe row with the given id. -/
def DB.mapRecipe (db : DB) (rid : Nat) (f : Recipe → Recipe) : DB :=
  { db with recipes := db.recipes.map (fun r => if r.id == rid then f r else r) }

/-- Embedding of `recipe.tags.add(tag_obj)`. -/
def recipeTagsAdd (db : DB) (rid tid : Nat) : DB :=
  db.mapRecipe rid (fun r => { r with tags := mmAdd r.tags tid })

/-- Embedding of `recipe.ingredients.add(ing_obj)`. -/
def recipeIngredientsAdd (db : DB) (rid iid : Nat) : DB :=
  db.mapRecipe rid (fun r => { r with ingredients := mmAdd r.ingredients iid })

/-- One iteration of the loop in `RecipeSerializer._get_or_create_tags`:
get-or-create the tag for the authenticated user, then add it to the
recipe relation. -/
def getOrCreateTagStep (u rid : Nat) (db : DB) (n : String) : DB :=
  let p := getOrCreateTag db u n
  recipeTagsAdd p.1 rid p.2

/-- Embedding of `RecipeSerializer._get_or_create_tags(tags, recipe)`:
fold the per-tag step over the nested name list. -/
def getOrCreateTags (db : DB) (u rid : Nat) (names : List String) : DB :=
  names.foldl (getOrCreateTagStep u rid) db

/-- One iteration of the loop in `RecipeSerializer._get_or_create_ingredients`. -/
def getOrCreateIngredientStep (u rid : Nat) (db : DB) (n : String) : DB :=
  let p := getOrCreateIngredient db u n
  recipeIngredientsAdd p.1 rid p.2

/-- Embedding of `RecipeSerializer._get_or_create_ingredients(ingredients, recipe)`. -/
def getOrCreateIngredients (db : DB) (u rid : Nat) (names : List String) : DB :=
  names.foldl (getOrCreateIngredientStep u rid) db

/-- Validated request data for the recipe serializer.  Every field is
optional, mirroring a partial update payload; `user` is present so that a
payload attempting to set the owner can be expressed (the Meta field list
decides whether it survives validation). -/
structure RecipeInput where
  title : Option String := none
  time_minutes : Option Nat := none
  price : Option Int := none
  link : Option String := none
  description : Option String := none
  tags : Option (List String) := none
  ingredients : Option (List String) := none
  user : Option Nat := none
deriving DecidableEq, Repr

/-- Field list of `RecipeSerializer.Meta`. -/
def RecipeSerializerFields : List String :=
  ["id", "title", "time_minutes", "price", "link", "tags", "ingredients"]

/-- Read-only field list of `RecipeSerializer.Meta`. -/
def RecipeSerializerReadOnly : List String := ["id"]

/-- Field list of `RecipeDetailsSerializer.Meta`: the base list plus the
long-form description. -/
def RecipeDetailsSerializerFields : List String :=
  RecipeSerializerFields ++ ["description"]

/-- Keep a payload entry only when its field is writable, i.e. listed in
`Meta.fields` and not in `Meta.read_only_fields`.  This is the framework
validation step driven by the Meta declaration: unknown and read-only
fields are silently dropped. -/
def keepWritable (fields ro : List String) (f : String) {α : Type} (x : Option α) :
    Option α :=
  if f ∈ fields ∧ f ∉ ro then x else none

/-- Validated data produced by the recipe serializer for a raw payload,
per `RecipeSerializer.Meta`: the `user` key is not among the declared
fields, so it is dropped. -/
def RecipeSerializerValidate (p : RecipeInput) : RecipeInput :=
  { title := keepWritable RecipeSerializerFields RecipeSerializerReadOnly "title" p.title
    time_minutes :=
      keepWritable RecipeSerializerFields RecipeSerializerReadOnly "time_minutes" p.time_minutes
    price := keepWritable RecipeSerializerFields RecipeSerializerReadOnly "price" p.price
    link := keepWritable RecipeSerializerFields RecipeSerializerReadOnly "link" p.link
    description :=
      keepWritable RecipeSerializerFields RecipeSerializerReadOnly "description" p.description
    tags := keepWritable RecipeSerializerFields RecipeSerializerReadOnly "tags" p.tags
    ingredients :=
      keepWritable RecipeSerializerFields RecipeSerializerReadOnly "ingredients" p.ingredients
    user := keepWritable RecipeSerializerFields RecipeSerializerReadOnly "user" p.user }

/-- Embedding of `RecipeSerializer.create(self, data)`: pop the nested
lists, create the recipe row (owned by the authenticated user, supplied by
the view), then run both get-or-create loops.  Returns the new database
and the id of the created recipe. -/
def RecipeSerializerCreate (db : DB) (u : Nat) (data : RecipeInput) : DB × Nat :=
  let names := data.tags.getD []
  let ings := data.ingredients.getD []
  let rid := db.nextRecipeId
  let r : Recipe :=
    { id := rid, user := u,
      title := data.title.getD "",
      time_minutes := data.time_minutes.getD 0,
      price := data.price.getD 0,
      link := data.link.getD "",
      description := data.description.getD "",
      tags := [], ingredients := [] }
  let db1 : DB := { db with recipes := db.recipes ++ [r], nextRecipeId := rid + 1 }
  let db2 := getOrCreateTags db1 u rid names
  let db3 := getOrCreateIngredients db2 u rid ings
  (db3, rid)

/-- Assignment of the scalar fields performed by the `setattr` loop of
`RecipeSerializer.update` followed by `instance.save()`. -/
def setScalars (r : Recipe) (data : RecipeInput) : Recipe :=
  { r with
      title := data.title.getD r.title,
      time_minutes := data.time_minutes.getD r.time_minutes,
      price := data.price.getD r.price,
      link := data.link.getD r.link,
      description := data.description.getD r.description,
      user := data.user.getD r.user }

/-- Result of an update: the database state reached, and whether the
request completed without raising.  Tag relation writes hit the database
immediately, so they survive a later exception; scalar writes only land at
`instance.save()`. -/
structure UpdateResult where
  db : DB
  ok : Bool
deriving Repr

/-- Embedding of `RecipeSerializer.update(self, instance, data)`: pop
`tags` and, when present (even as the empty list), clear the relation and
re-attach via get-or-create.  The remaining items go through `setattr`;
the method never pops `ingredients`, so a supplied ingredient list reaches
`setattr` on the many-to-many descriptor, which raises before
`instance.save()` is executed. -/
def RecipeSerializerUpdate (db : DB) (u rid : Nat) (data : RecipeInput) :
    UpdateResult :=
  let db1 :=
    match data.tags with
    | none => db
    | some names =>
        getOrCreateTags (db.mapRecipe rid (fun r => { r with tags := [] })) u rid names
  match data.ingredients with
  | some _ => ⟨db1, false⟩
  | none => ⟨db1.mapRecipe rid (fun r => setScalars r data), true⟩

/-- Number of tag rows owned by `u` with name `n`. -/
def countTag (db : DB) (u : Nat) (n : String) : Nat :=
  (db.tags.filter (fun t => t.user == u && t.name == n)).length

/-- Number of ingredient rows owned by `u` with name `n`. -/
def countIngredient (db : DB) (u : Nat) (n : String) : Nat :=
  (db.ingredients.filter (fun i => i.user == u && i.name == n)).length

/-- Tag ids associated with a recipe (empty when the recipe is absent). -/
def recipeTagIds (db : DB) (rid : Nat) : List Nat :=
  ((db.findRecipe rid).map Recipe.tags).getD []

/-- Ingredient ids associated with a recipe. -/
def recipeIngredientIds (db : DB) (rid : Nat) : List Nat :=
  ((db.findRecipe rid).map Recipe.ingredients).getD []

/-- Database well-formedness: primary keys below the counters, keys unique
per table, and get-or-create has kept (user, name) unique for tags and
ingredients. -/
def DB.WF (db : DB) : Prop :=
  (∀ t ∈ db.tags, t.id < db.nextTagId) ∧
  (∀ i ∈ db.ingredients, i.id < db.nextIngredientId) ∧
  (∀ r ∈ db.recipes, r.id < db.nextRecipeId) ∧
  (∀ t₁ ∈ db.tags, ∀ t₂ ∈ db.tags, t₁.user = t₂.user → t₁.name = t₂.name → t₁ = t₂) ∧
  (∀ i₁ ∈ db.ingredients, ∀ i₂ ∈ db.ingredients,
      i₁.user = i₂.user → i₁.name = i₂.name → i₁ = i₂) ∧
  (∀ r₁ ∈ db.recipes, ∀ r₂ ∈ db.recipes, r₁.id = r₂.id → r₁ = r₂) ∧
  db.tags.Nodup ∧ db.ingredients.Nodup ∧ db.recipes.Nodup

/-- Relation between a recipe row before and after tag operations: every
field except the tag relation is unchanged, and the tag relation only
grows (staying duplicate-free). -/
structure TagsOnlyLE (r r' : Recipe) : Prop where
  id_eq : r'.id = r.id
  user_eq : r'.user = r.user
  title_eq : r'.title = r.title
  time_eq : r'.time_minutes = r.time_minutes
  price_eq : r'.price = r.price
  link_eq : r'.link = r.link
  descr_eq : r'.description = r.description
  ings_eq : r'.ingredients = r.ingredients
  tags_mono : ∀ x ∈ r.tags, x ∈ r'.tags
  tags_nodup : r.tags.Nodup → r'.tags.Nodup

/-- Relation between database states before and after tag operations: tag
rows are never deleted, the ingredient table is untouched, and every
recipe row evolves along `TagsOnlyLE`. -/
structure TagOpLE (db db' : DB) : Prop where
  tags_mono : ∀ t ∈ db.tags, t ∈ db'.tags
  ings_eq : db'.ingredients = db.ingredients
  find_none : ∀ rid', db.findRecipe rid' = none → db'.findRecipe rid' = none
  find_some : ∀ rid' r, db.findRecipe rid' = some r →
    ∃ r', db'.findRecipe rid' = some r' ∧ TagsOnlyLE r r'

/-- Relation between a recipe row before and after ingredient operations:
every field except the ingredient relation is unchanged, and the
ingredient relation only grows (staying duplicate-free). -/
structure IngsOnlyLE (r r' : Recipe) : Prop where
  id_eq : r'.id = r.id
  user_eq : r'.user = r.user
  title_eq : r'.title = r.title
  time_eq : r'.time_minutes = r.time_minutes
  price_eq : r'.price = r.price
  link_eq : r'.link = r.link
  descr_eq : r'.description = r.description
  tags_eq : r'.tags = r.tags
  ings_mono : ∀ x ∈ r.ingredients, x ∈ r'.ingredients
  ings_nodup : r.ingredients.Nodup → r'.ingredients.Nodup

/-- Relation between database states before and after ingredient
operations. -/
structure IngOpLE (db db' : DB) : Prop where
  ings_mono : ∀ i ∈ db.ingredients, i ∈ db'.ingredients
  tags_eq : db'.tags = db.tags
  find_none : ∀ rid', db.findRecipe rid' = none → db'.findRecipe rid' = none
  find_some : ∀ rid' r, db.findRecipe rid' = some r →
    ∃ r', db'.findRecipe rid' = some r' ∧ IngsOnlyLE r r'

instance (db : DB) : Decidable db.WF := by
  unfold DB.WF
  infer_instance

/-- Insertion of an element into a list sorted descending by a key. -/
def insertDescBy {α β : Type} [LinearOrder β] (key : α → β) (x : α) : List α → List α
  | [] => [x]
  | y :: ys => if key y ≤ key x then x :: y :: ys else y :: insertDescBy key x ys

/-- Sorting a list descending by a key (insertion sort), the embedding of
an `order_by('-field')` queryset ordering. -/
def sortDescBy {α β : Type} [LinearOrder β] (key : α → β) : List α → List α
  | [] => []
  | x :: xs => insertDescBy key x (sortDescBy key xs)

/-- Modelled from the spec: the recipe list endpoint (views.py is not
among the source files).  Per the spec, the queryset is filtered to the
records owned by the authenticated caller and ordered by identifier
descending. -/
def recipeListEndpoint (db : DB) (u : Nat) : List Recipe :=
  sortDescBy Recipe.id (db.recipes.filter (fun r => r.user == u))

/-- Modelled from the spec: the tag list endpoint (views.py is not among
the source files).  Per the spec, return only records owned by the
caller, ordered by name descending; with the assigned-only query flag,
restrict to tags referenced by at least one recipe, de-duplicated (the
underlying recipe join yields one row per referencing recipe, collapsed
by `distinct`). -/
def tagListEndpoint (db : DB) (u : Nat) (assignedOnly : Bool) : List Tag :=
  sortDescBy Tag.name
    (if assignedOnly then
      (db.recipes.flatMap (fun r =>
        (db.tags.filter (fun t => t.user == u)).filter
          (fun t => r.tags.contains t.id))).dedup
    else db.tags.filter (fun t => t.user == u))

/-- Modelled from the spec: the ingredient list endpoint (views.py is not
among the source files); same shape as the tag list endpoint. -/
def ingredientListEndpoint (db : DB) (u : Nat) (assignedOnly : Bool) : List Ingredient :=
  sortDescBy Ingredient.name
    (if assignedOnly then
      (db.recipes.flatMap (fun r =>
        (db.ingredients.filter (fun i => i.user == u)).filter
          (fun i => r.ingredients.contains i.id))).dedup
    else db.ingredients.filter (fun i => i.user == u))

/-- Modelled from the spec: DELETE on a recipe detail URL (views.py is
not among the source files).  The detail lookup runs against the queryset
filtered to the caller, so a recipe of another user is not found (404 and
no change); a found recipe is deleted (204). -/
def recipeDeleteEndpoint (db : DB) (u rid : Nat) : Nat × DB :=
  match db.recipes.find? (fun r => r.id == rid && r.user == u) with
  | none => (404, db)
  | some _ =>
      (204,
        { db with recipes := db.recipes.filter (fun r => !(r.id == rid && r.user == u)) })

/-- Rendering of one serializer field of a recipe row, the embedding of
the per-field output of `to_representation`; the nested `tags` and
`ingredients` relations render as their id lists. -/
def serializeRecipeField (r : Recipe) (f : String) : String :=
  if f == "id" then toString r.id
  else if f == "title" then r.title
  else if f == "time_minutes" then toString r.time_minutes
  else if f == "price" then toString r.price
  else if f == "link" then r.link
  else if f == "tags" then toString r.tags
  else if f == "ingredients" then toString r.ingredients
  else if f == "description" then r.description
  else ""

/-- Response representation produced by `RecipeSerializer` (the list
representation): one key-value pair per declared Meta field. -/
def RecipeSerializerRepresentation (r : Recipe) : List (String × String) :=
  RecipeSerializerFields.map (fun f => (f, serializeRecipeField r f))

/-- Response representation produced by `RecipeDetailsSerializer` (the
detail representation). -/
def RecipeDetailsSerializerRepresentation (r : Recipe) : List (String × String) :=
  RecipeDetailsSerializerFields.map (fun f => (f, serializeRecipeField r f))


/-- Concrete well-formed database used to instantiate the verified
statements on explicit inputs. -/
def sampleDB : DB :=
  { tags := [⟨0, 0, "Dessert"⟩, ⟨1, 1, "Fruity"⟩],
    ingredients := [⟨0, 0, "Salt"⟩],
    recipes :=
      [{ id := 0, user := 0, title := "Soup", time_minutes := 5, price := 3,
         link := "", description := "warm", tags := [0], ingredients := [0] },
       { id := 1, user := 1, title := "Cake", time_minutes := 40, price := 12,
         link := "", description := "sweet", tags := [1], ingredients := [] }],
    nextTagId := 2, nextIngredientId := 1, nextRecipeId := 2 }

example :
    (RecipeSerializerCreate
      { tags := [], ingredients := [], recipes := [],
        nextTagId := 0, nextIngredientId := 0, nextRecipeId := 0 }
      7
      { title := some "Pierogi", tags := some ["thai", "dinner", "thai"] }).1.tags
    = [⟨0, 7, "thai"⟩, ⟨1, 7, "dinner"⟩] := by decide

example :
    recipeTagIds
      (RecipeSerializerCreate
        { tags := [], ingredients := [], recipes := [],
          nextTagId := 0, nextIngredientId := 0, nextRecipeId := 0 }
        7
        { title := some "Pierogi", tags := some ["thai", "dinner", "thai"] }).1
      0
    = [0, 1] := by decide

/-! ### Basic facts about the primitive database operations -/

theorem tags_recipeTagsAdd (db : DB) (rid tid : Nat) :
    (recipeTagsAdd db rid tid).tags = db.tags := rfl

theorem ingredients_recipeTagsAdd (db : DB) (rid tid : Nat) :
    (recipeTagsAdd db rid tid).ingredients = db.ingredients := rfl

theorem ingredients_getOrCreateTag (db : DB) (u : Nat) (n : String) :
    ((getOrCreateTag db u n).1).ingredients = db.ingredients := by
  unfold getOrCreateTag
  split <;> rfl

theorem recipes_getOrCreateTag (db : DB) (u : Nat) (n : String) :
    ((getOrCreateTag db u n).1).recipes = db.recipes := by
  unfold getOrCreateTag
  split <;> rfl

theorem mem_mmAdd_self (xs : List Nat) (x : Nat) : x ∈ mmAdd xs x := by
  unfold mmAdd
  split
  · assumption
  · exact List.mem_append_right _ (List.mem_singleton.mpr rfl)

theorem mem_mmAdd_of_mem {xs : List Nat} {y : Nat} (x : Nat) (h : y ∈ xs) :
    y ∈ mmAdd xs x := by
  unfold mmAdd
  split
  · exact h
  · exact List.mem_append_left _ h

theorem mem_mmAdd_elim {xs : List Nat} {x y : Nat} (h : y ∈ mmAdd xs x) :
    y ∈ xs ∨ y = x := by
  unfold mmAdd at h
  split at h
  · exact Or.inl h
  · rcases List.mem_append.mp h with h1 | h2
    · exact Or.inl h1
    · exact Or.inr (List.mem_singleton.mp h2)

theorem nodup_mmAdd {xs : List Nat} (x : Nat) (h : xs.Nodup) : (mmAdd xs x).Nodup := by
  unfold mmAdd
  split
  · exact h
  · rename_i hx
    simp [List.nodup_append, h, hx]

theorem findRecipe_mapRecipe (db : DB) (rid : Nat) (f : Recipe → Recipe)
    (hf : ∀ r, (f r).id = r.id) (rid' : Nat) :
    (db.mapRecipe rid f).findRecipe rid'
      = (db.findRecipe rid').map (fun r => if r.id == rid then f r else r) := by
  unfold DB.mapRecipe DB.findRecipe
  rw [List.find?_map]
  have hp : ((fun r : Recipe => r.id == rid') ∘ fun r => if r.id == rid then f r else r)
      = fun r : Recipe => r.id == rid' := by
    funext r
    by_cases h : r.id = rid
    · simp [Function.comp, hf, h]
    · simp [Function.comp, h]
  rw [hp]

/-! ### Preservation relation for the tag get-or-create fold -/



theorem tagsOnlyLE_refl (r : Recipe) : TagsOnlyLE r r :=
  ⟨rfl, rfl, rfl, rfl, rfl, rfl, rfl, rfl, fun _ h => h, fun h => h⟩

theorem tagsOnlyLE_trans {r₁ r₂ r₃ : Recipe}
    (h₁ : TagsOnlyLE r₁ r₂) (h₂ : TagsOnlyLE r₂ r₃) : TagsOnlyLE r₁ r₃ := by
  obtain ⟨a1, a2, a3, a4, a5, a6, a7, a8, a9, a10⟩ := h₁
  obtain ⟨b1, b2, b3, b4, b5, b6, b7, b8, b9, b10⟩ := h₂
  refine ⟨b1.trans a1, b2.trans a2, b3.trans a3, b4.trans a4, b5.trans a5,
    b6.trans a6, b7.trans a7, b8.trans a8, fun x hx => b9 x (a9 x hx),
    fun h => b10 (a10 h)⟩

theorem tagOpLE_refl (db : DB) : TagOpLE db db :=
  ⟨fun _ h => h, rfl, fun _ h => h, fun _ r h => ⟨r, h, tagsOnlyLE_refl r⟩⟩

theorem tagOpLE_trans {db₁ db₂ db₃ : DB}
    (h₁ : TagOpLE db₁ db₂) (h₂ : TagOpLE db₂ db₃) : TagOpLE db₁ db₃ := by
  obtain ⟨a1, a2, a3, a4⟩ := h₁
  obtain ⟨b1, b2, b3, b4⟩ := h₂
  refine ⟨fun t ht => b1 t (a1 t ht), b2.trans a2,
    fun rid' h => b3 rid' (a3 rid' h), fun rid' r h => ?_⟩
  obtain ⟨r', hr', hle⟩ := a4 rid' r h
  obtain ⟨r'', hr'', hle'⟩ := b4 rid' r' hr'
  exact ⟨r'', hr'', tagsOnlyLE_trans hle hle'⟩

theorem tagOpLE_getOrCreateTag (db : DB) (u : Nat) (n : String) :
    TagOpLE db (getOrCreateTag db u n).1 := by
  unfold getOrCreateTag
  split
  · exact tagOpLE_refl db
  · refine ⟨fun t ht => List.mem_append_left _ ht, rfl, fun _ h => h,
      fun _ r h => ⟨r, h, tagsOnlyLE_refl r⟩⟩

theorem tagOpLE_recipeTagsAdd (db : DB) (rid tid : Nat) :
    TagOpLE db (recipeTagsAdd db rid tid) := by
  refine ⟨fun t ht => ht, rfl, fun rid' h => ?_, fun rid' r h => ?_⟩
  · rw [recipeTagsAdd,
      findRecipe_mapRecipe db rid (fun r => { r with tags := mmAdd r.tags tid })
        (fun _ => rfl) rid', h]
    rfl
  · rw [recipeTagsAdd,
      findRecipe_mapRecipe db rid (fun r => { r with tags := mmAdd r.tags tid })
        (fun _ => rfl) rid', h]
    by_cases hid : r.id = rid
    · refine ⟨{ r with tags := mmAdd r.tags tid }, by simp [hid], ?_⟩
      refine ⟨rfl, rfl, rfl, rfl, rfl, rfl, rfl, rfl,
        fun x hx => mem_mmAdd_of_mem tid hx, fun hd => nodup_mmAdd tid hd⟩
    · exact ⟨r, by simp [hid], tagsOnlyLE_refl r⟩

theorem tagOpLE_step (u rid : Nat) (db : DB) (n : String) :
    TagOpLE db (getOrCreateTagStep u rid db n) :=
  tagOpLE_trans (tagOpLE_getOrCreateTag db u n)
    (tagOpLE_recipeTagsAdd (getOrCreateTag db u n).1 rid (getOrCreateTag db u n).2)

theorem tagOpLE_fold (u rid : Nat) (names : List String) :
    ∀ db : DB, TagOpLE db (getOrCreateTags db u rid names) := by
  induction names with
  | nil => exact fun db => tagOpLE_refl db
  | cons m rest ih =>
      intro db
      exact tagOpLE_trans (tagOpLE_step u rid db m) (ih (getOrCreateTagStep u rid db m))

/-! ### Counting lemmas for the tag get-or-create fold -/

theorem getOrCreateTags_nil (db : DB) (u rid : Nat) :
    getOrCreateTags db u rid [] = db := rfl

theorem getOrCreateTags_cons (db : DB) (u rid : Nat) (m : String) (rest : List String) :
    getOrCreateTags db u rid (m :: rest)
      = getOrCreateTags (getOrCreateTagStep u rid db m) u rid rest := rfl

theorem countTag_eq_zero_iff (db : DB) (u : Nat) (n : String) :
    countTag db u n = 0 ↔ db.findTag u n = none := by
  unfold countTag DB.findTag
  rw [List.length_eq_zero, List.filter_eq_nil_iff, List.find?_eq_none]

theorem countTag_recipeTagsAdd (db : DB) (rid tid u : Nat) (n : String) :
    countTag (recipeTagsAdd db rid tid) u n = countTag db u n := rfl

theorem countTag_append_single (db : DB) (tg : Tag) (tid : Nat) (u' : Nat) (n' : String) :
    countTag { db with tags := db.tags ++ [tg], nextTagId := tid } u' n'
      = countTag db u' n' + (if tg.user = u' ∧ tg.name = n' then 1 else 0) := by
  unfold countTag
  simp only [List.filter_append, List.length_append]
  congr 1
  by_cases hu : tg.user = u'
  · by_cases hn : tg.name = n'
    · simp [hu, hn]
    · simp [hu, hn]
  · simp [hu]

theorem countTag_getOrCreateTag (db : DB) (u : Nat) (n : String) (u' : Nat) (n' : String) :
    countTag ((getOrCreateTag db u n).1) u' n'
      = countTag db u' n'
        + (if countTag db u n = 0 ∧ u' = u ∧ n' = n then 1 else 0) := by
  unfold getOrCreateTag
  split
  · rename_i t hf
    have h0 : countTag db u n ≠ 0 := fun h => by
      rw [(countTag_eq_zero_iff db u n).mp h] at hf
      exact Option.noConfusion hf
    simp [h0]
  · rename_i hf
    have h0 : countTag db u n = 0 := (countTag_eq_zero_iff db u n).mpr hf
    rw [countTag_append_single]
    simp only [h0, true_and]
    congr 1
    refine if_congr ?_ rfl rfl
    constructor
    · rintro ⟨h1, h2⟩; exact ⟨h1.symm, h2.symm⟩
    · rintro ⟨h1, h2⟩; exact ⟨h1.symm, h2.symm⟩

theorem countTag_step (u rid : Nat) (db : DB) (n : String) (u' : Nat) (n' : String) :
    countTag (getOrCreateTagStep u rid db n) u' n'
      = countTag db u' n'
        + (if countTag db u n = 0 ∧ u' = u ∧ n' = n then 1 else 0) := by
  unfold getOrCreateTagStep
  rw [countTag_recipeTagsAdd, countTag_getOrCreateTag]

theorem countTag_fold (u rid : Nat) (names : List String) :
    ∀ (db : DB) (u' : Nat) (n' : String),
      countTag (getOrCreateTags db u rid names) u' n'
        = if u' = u ∧ n' ∈ names ∧ countTag db u' n' = 0 then 1
          else countTag db u' n' := by
  induction names with
  | nil => intro db u' n'; simp [getOrCreateTags_nil]
  | cons m rest ih =>
      intro db u' n'
      rw [getOrCreateTags_cons, ih (getOrCreateTagStep u rid db m) u' n',
        countTag_step]
      by_cases hu : u' = u
      · subst hu
        by_cases hm : n' = m
        · subst hm
          by_cases hcm : countTag db u' n' = 0
          · simp [hcm, List.mem_cons]
          · simp [hcm, List.mem_cons]
        · simp [hm, List.mem_cons]
      · simp [hu]

/-! ### Attachment lemmas for the tag get-or-create fold -/

theorem findRecipe_id {db : DB} {rid : Nat} {r : Recipe}
    (h : db.findRecipe rid = some r) : r.id = rid := by
  unfold DB.findRecipe at h
  have := List.find?_some h
  simpa using this

theorem findRecipe_getOrCreateTag (db : DB) (u : Nat) (n : String) (rid : Nat) :
    ((getOrCreateTag db u n).1).findRecipe rid = db.findRecipe rid := by
  unfold DB.findRecipe
  rw [recipes_getOrCreateTag]

theorem findTag_user_name {db : DB} {u : Nat} {n : String} {t : Tag}
    (h : db.findTag u n = some t) : t ∈ db.tags ∧ t.user = u ∧ t.name = n := by
  unfold DB.findTag at h
  refine ⟨List.mem_of_find?_eq_some h, ?_⟩
  have := List.find?_some h
  simpa using this

theorem getOrCreateTag_snd_spec (db : DB) (u : Nat) (n : String) :
    ∃ t ∈ ((getOrCreateTag db u n).1).tags,
      t.user = u ∧ t.name = n ∧ t.id = (getOrCreateTag db u n).2 := by
  unfold getOrCreateTag
  split
  · rename_i t hf
    obtain ⟨ht, hu, hn⟩ := findTag_user_name hf
    exact ⟨t, ht, hu, hn, rfl⟩
  · exact ⟨⟨db.nextTagId, u, n⟩, List.mem_append_right _ (by simp), rfl, rfl, rfl⟩

theorem recipeTagIds_recipeTagsAdd_self {db : DB} {rid : Nat} (tid : Nat) {r : Recipe}
    (hr : db.findRecipe rid = some r) :
    recipeTagIds (recipeTagsAdd db rid tid) rid = mmAdd r.tags tid := by
  have hid : r.id = rid := findRecipe_id hr
  unfold recipeTagIds
  rw [recipeTagsAdd,
    findRecipe_mapRecipe db rid (fun r => { r with tags := mmAdd r.tags tid })
      (fun _ => rfl) rid, hr]
  simp [hid]

theorem getOrCreateTagStep_attaches (u rid : Nat) (db : DB) (n : String) (r : Recipe)
    (hr : db.findRecipe rid = some r) :
    ∃ t ∈ (getOrCreateTagStep u rid db n).tags,
      t.user = u ∧ t.name = n ∧
        t.id ∈ recipeTagIds (getOrCreateTagStep u rid db n) rid := by
  obtain ⟨t, ht, hu, hn, hid⟩ := getOrCreateTag_snd_spec db u n
  have hr₁ : ((getOrCreateTag db u n).1).findRecipe rid = some r := by
    rw [findRecipe_getOrCreateTag]; exact hr
  refine ⟨t, ?_, hu, hn, ?_⟩
  · show t ∈ (recipeTagsAdd _ rid _).tags
    rw [tags_recipeTagsAdd]
    exact ht
  · show t.id ∈ recipeTagIds (recipeTagsAdd _ rid _) rid
    rw [recipeTagIds_recipeTagsAdd_self (getOrCreateTag db u n).2 hr₁, hid]
    exact mem_mmAdd_self _ _

theorem recipeTagIds_mono {db db' : DB} (h : TagOpLE db db') (rid : Nat) :
    ∀ x ∈ recipeTagIds db rid, x ∈ recipeTagIds db' rid := by
  intro x hx
  unfold recipeTagIds at *
  cases hr : db.findRecipe rid with
  | none => rw [hr] at hx; simp at hx
  | some r =>
      rw [hr] at hx
      obtain ⟨r', hr', hle⟩ := h.find_some rid r hr
      rw [hr']
      simpa using hle.tags_mono x (by simpa using hx)

theorem getOrCreateTags_attaches (u rid : Nat) (names : List String) :
    ∀ (db : DB) (r : Recipe), db.findRecipe rid = some r →
      ∀ n ∈ names,
        ∃ t ∈ (getOrCreateTags db u rid names).tags,
          t.user = u ∧ t.name = n ∧
            t.id ∈ recipeTagIds (getOrCreateTags db u rid names) rid := by
  induction names with
  | nil => intro db r hr n hn; simp at hn
  | cons m rest ih =>
      intro db r hr n hn
      have hstep : TagOpLE db (getOrCreateTagStep u rid db m) := tagOpLE_step u rid db m
      obtain ⟨r₁, hr₁, _⟩ := hstep.find_some rid r hr
      have hrest : TagOpLE (getOrCreateTagStep u rid db m)
          (getOrCreateTags (getOrCreateTagStep u rid db m) u rid rest) :=
        tagOpLE_fold u rid rest _
      rcases List.mem_cons.mp hn with h | h
      · subst h
        obtain ⟨t, ht, hu, hn', hid⟩ := getOrCreateTagStep_attaches u rid db n r hr
        rw [getOrCreateTags_cons]
        exact ⟨t, hrest.tags_mono t ht, hu, hn',
          recipeTagIds_mono hrest rid t.id hid⟩
      · rw [getOrCreateTags_cons]
        exact ih (getOrCreateTagStep u rid db m) r₁ hr₁ n h

/-! ### Reuse and soundness lemmas for the tag get-or-create fold -/

theorem tags_step (u rid : Nat) (db : DB) (m : String) :
    (getOrCreateTagStep u rid db m).tags = ((getOrCreateTag db u m).1).tags := rfl

theorem getOrCreateTag_tags_cases (db : DB) (u : Nat) (m : String) :
    ((getOrCreateTag db u m).1).tags = db.tags ∨
      ((getOrCreateTag db u m).1).tags = db.tags ++ [⟨db.nextTagId, u, m⟩] := by
  unfold getOrCreateTag
  split
  · exact Or.inl rfl
  · exact Or.inr rfl

theorem getOrCreateTags_reuses (u rid : Nat) (names : List String) :
    ∀ (db : DB) (r : Recipe) (t₀ : Tag) (n : String),
      db.findRecipe rid = some r →
      t₀ ∈ db.tags → t₀.user = u → t₀.name = n →
      (∀ t ∈ db.tags, t.user = u → t.name = n → t = t₀) →
      n ∈ names →
      t₀.id ∈ recipeTagIds (getOrCreateTags db u rid names) rid := by
  induction names with
  | nil => intro db r t₀ n _ _ _ _ _ hn; simp at hn
  | cons m rest ih =>
      intro db r t₀ n hr ht₀ hu hn huniq hmem
      rw [getOrCreateTags_cons]
      by_cases hm : m = n
      · subst hm
        obtain ⟨t, hf⟩ : ∃ t, db.findTag u m = some t := by
          cases hft : db.findTag u m with
          | none =>
              exfalso
              unfold DB.findTag at hft
              have := List.find?_eq_none.mp hft t₀ ht₀
              simp [hu, hn] at this
          | some t => exact ⟨t, rfl⟩
        obtain ⟨htm, htu, htn⟩ := findTag_user_name hf
        have hteq : t = t₀ := huniq t htm htu htn
        have hstep_eq : getOrCreateTagStep u rid db m = recipeTagsAdd db rid t.id := by
          unfold getOrCreateTagStep getOrCreateTag
          rw [hf]
        have hattach : t₀.id ∈ recipeTagIds (getOrCreateTagStep u rid db m) rid := by
          rw [hstep_eq, recipeTagIds_recipeTagsAdd_self t.id hr, hteq]
          exact mem_mmAdd_self _ _
        exact recipeTagIds_mono (tagOpLE_fold u rid rest _) rid t₀.id hattach
      · have hstep : TagOpLE db (getOrCreateTagStep u rid db m) := tagOpLE_step u rid db m
        obtain ⟨r₁, hr₁, _⟩ := hstep.find_some rid r hr
        have ht₀' : t₀ ∈ (getOrCreateTagStep u rid db m).tags := hstep.tags_mono t₀ ht₀
        have huniq' : ∀ t ∈ (getOrCreateTagStep u rid db m).tags,
            t.user = u → t.name = n → t = t₀ := by
          intro t ht htu htn
          rw [tags_step] at ht
          rcases getOrCreateTag_tags_cases db u m with hcase | hcase
          · rw [hcase] at ht
            exact huniq t ht htu htn
          · rw [hcase] at ht
            rcases List.mem_append.mp ht with h1 | h2
            · exact huniq t h1 htu htn
            · exfalso
              have : t = ⟨db.nextTagId, u, m⟩ := List.mem_singleton.mp h2
              rw [this] at htn
              exact hm htn
        have hmem' : n ∈ rest := by
          rcases List.mem_cons.mp hmem with h | h
          · exact absurd h.symm hm
          · exact h
        exact ih (getOrCreateTagStep u rid db m) r₁ t₀ n hr₁ ht₀' hu hn huniq' hmem'

theorem recipeTagIds_step_subset (u rid : Nat) (db : DB) (m : String) (rid' x : Nat)
    (hx : x ∈ recipeTagIds (getOrCreateTagStep u rid db m) rid') :
    x ∈ recipeTagIds db rid' ∨
      ∃ t ∈ (getOrCreateTagStep u rid db m).tags,
        t.id = x ∧ t.user = u ∧ t.name = m := by
  obtain ⟨t, ht, htu, htn, htid⟩ := getOrCreateTag_snd_spec db u m
  unfold getOrCreateTagStep at hx
  unfold recipeTagIds at hx
  rw [recipeTagsAdd,
    findRecipe_mapRecipe _ rid
      (fun r => { r with tags := mmAdd r.tags (getOrCreateTag db u m).2 })
      (fun _ => rfl) rid'] at hx
  cases hfr : ((getOrCreateTag db u m).1).findRecipe rid' with
  | none => rw [hfr] at hx; simp at hx
  | some r =>
      rw [hfr] at hx
      have hfr' : db.findRecipe rid' = some r := by
        rw [← findRecipe_getOrCreateTag db u m rid']; exact hfr
      by_cases hid : r.id = rid
      · simp only [Option.map_some', Option.getD_some] at hx
        rw [if_pos (by simp [hid])] at hx
        rcases mem_mmAdd_elim hx with h1 | h2
        · left
          unfold recipeTagIds
          rw [hfr']
          simpa using h1
        · right
          refine ⟨t, ?_, ?_, htu, htn⟩
          · rw [tags_step]; exact ht
          · rw [htid, h2]
      · simp only [Option.map_some', Option.getD_some] at hx
        rw [if_neg (by simp [hid])] at hx
        left
        unfold recipeTagIds
        rw [hfr']
        simpa using hx

theorem recipeTagIds_fold_subset (u rid : Nat) (names : List String) :
    ∀ (db : DB) (rid' x : Nat),
      x ∈ recipeTagIds (getOrCreateTags db u rid names) rid' →
      x ∈ recipeTagIds db rid' ∨
        ∃ t ∈ (getOrCreateTags db u rid names).tags,
          t.id = x ∧ t.user = u ∧ t.name ∈ names := by
  induction names with
  | nil => intro db rid' x hx; exact Or.inl hx
  | cons m rest ih =>
      intro db rid' x hx
      rw [getOrCreateTags_cons] at hx
      rcases ih (getOrCreateTagStep u rid db m) rid' x hx with h | ⟨t, ht, hid, hu, hn⟩
      · rcases recipeTagIds_step_subset u rid db m rid' x h with h1 | ⟨t, ht, hid, hu, hn⟩
        · exact Or.inl h1
        · refine Or.inr ⟨t, ?_, hid, hu, by rw [hn]; exact List.mem_cons_self m rest⟩
          rw [getOrCreateTags_cons]
          exact (tagOpLE_fold u rid rest _).tags_mono t ht
      · refine Or.inr ⟨t, ?_, hid, hu, List.mem_cons_of_mem m hn⟩
        rw [getOrCreateTags_cons]
        exact ht

/-! ### Basic facts about the ingredient operations (mirror of the tag side) -/

theorem ingredients_recipeIngredientsAdd (db : DB) (rid iid : Nat) :
    (recipeIngredientsAdd db rid iid).ingredients = db.ingredients := rfl

theorem tags_recipeIngredientsAdd (db : DB) (rid iid : Nat) :
    (recipeIngredientsAdd db rid iid).tags = db.tags := rfl

theorem tags_getOrCreateIngredient (db : DB) (u : Nat) (n : String) :
    ((getOrCreateIngredient db u n).1).tags = db.tags := by
  unfold getOrCreateIngredient
  split <;> rfl

theorem recipes_getOrCreateIngredient (db : DB) (u : Nat) (n : String) :
    ((getOrCreateIngredient db u n).1).recipes = db.recipes := by
  unfold getOrCreateIngredient
  split <;> rfl



theorem ingsOnlyLE_refl (r : Recipe) : IngsOnlyLE r r :=
  ⟨rfl, rfl, rfl, rfl, rfl, rfl, rfl, rfl, fun _ h => h, fun h => h⟩

theorem ingsOnlyLE_trans {r₁ r₂ r₃ : Recipe}
    (h₁ : IngsOnlyLE r₁ r₂) (h₂ : IngsOnlyLE r₂ r₃) : IngsOnlyLE r₁ r₃ := by
  obtain ⟨a1, a2, a3, a4, a5, a6, a7, a8, a9, a10⟩ := h₁
  obtain ⟨b1, b2, b3, b4, b5, b6, b7, b8, b9, b10⟩ := h₂
  refine ⟨b1.trans a1, b2.trans a2, b3.trans a3, b4.trans a4, b5.trans a5,
    b6.trans a6, b7.trans a7, b8.trans a8, fun x hx => b9 x (a9 x hx),
    fun h => b10 (a10 h)⟩

theorem ingOpLE_refl (db : DB) : IngOpLE db db :=
  ⟨fun _ h => h, rfl, fun _ h => h, fun _ r h => ⟨r, h, ingsOnlyLE_refl r⟩⟩

theorem ingOpLE_trans {db₁ db₂ db₃ : DB}
    (h₁ : IngOpLE db₁ db₂) (h₂ : IngOpLE db₂ db₃) : IngOpLE db₁ db₃ := by
  obtain ⟨a1, a2, a3, a4⟩ := h₁
  obtain ⟨b1, b2, b3, b4⟩ := h₂
  refine ⟨fun i hi => b1 i (a1 i hi), b2.trans a2,
    fun rid' h => b3 rid' (a3 rid' h), fun rid' r h => ?_⟩
  obtain ⟨r', hr', hle⟩ := a4 rid' r h
  obtain ⟨r'', hr'', hle'⟩ := b4 rid' r' hr'
  exact ⟨r'', hr'', ingsOnlyLE_trans hle hle'⟩

theorem ingOpLE_getOrCreateIngredient (db : DB) (u : Nat) (n : String) :
    IngOpLE db (getOrCreateIngredient db u n).1 := by
  unfold getOrCreateIngredient
  split
  · exact ingOpLE_refl db
  · refine ⟨fun i hi => List.mem_append_left _ hi, rfl, fun _ h => h,
      fun _ r h => ⟨r, h, ingsOnlyLE_refl r⟩⟩

theorem ingOpLE_recipeIngredientsAdd (db : DB) (rid iid : Nat) :
    IngOpLE db (recipeIngredientsAdd db rid iid) := by
  refine ⟨fun i hi => hi, rfl, fun rid' h => ?_, fun rid' r h => ?_⟩
  · rw [recipeIngredientsAdd,
      findRecipe_mapRecipe db rid (fun r => { r with ingredients := mmAdd r.ingredients iid })
        (fun _ => rfl) rid', h]
    rfl
  · rw [recipeIngredientsAdd,
      findRecipe_mapRecipe db rid (fun r => { r with ingredients := mmAdd r.ingredients iid })
        (fun _ => rfl) rid', h]
    by_cases hid : r.id = rid
    · refine ⟨{ r with ingredients := mmAdd r.ingredients iid }, by simp [hid], ?_⟩
      refine ⟨rfl, rfl, rfl, rfl, rfl, rfl, rfl, rfl,
        fun x hx => mem_mmAdd_of_mem iid hx, fun hd => nodup_mmAdd iid hd⟩
    · exact ⟨r, by simp [hid], ingsOnlyLE_refl r⟩

theorem ingOpLE_step (u rid : Nat) (db : DB) (n : String) :
    IngOpLE db (getOrCreateIngredientStep u rid db n) :=
  ingOpLE_trans (ingOpLE_getOrCreateIngredient db u n)
    (ingOpLE_recipeIngredientsAdd (getOrCreateIngredient db u n).1 rid
      (getOrCreateIngredient db u n).2)

theorem ingOpLE_fold (u rid : Nat) (names : List String) :
    ∀ db : DB, IngOpLE db (getOrCreateIngredients db u rid names) := by
  induction names with
  | nil => exact fun db => ingOpLE_refl db
  | cons m rest ih =>
      intro db
      exact ingOpLE_trans (ingOpLE_step u rid db m)
        (ih (getOrCreateIngredientStep u rid db m))

/-! ### Counting lemmas for the ingredient get-or-create fold -/

theorem getOrCreateIngredients_nil (db : DB) (u rid : Nat) :
    getOrCreateIngredients db u rid [] = db := rfl

theorem getOrCreateIngredients_cons (db : DB) (u rid : Nat) (m : String)
    (rest : List String) :
    getOrCreateIngredients db u rid (m :: rest)
      = getOrCreateIngredients (getOrCreateIngredientStep u rid db m) u rid rest := rfl

theorem countIngredient_eq_zero_iff (db : DB) (u : Nat) (n : String) :
    countIngredient db u n = 0 ↔ db.findIngredient u n = none := by
  unfold countIngredient DB.findIngredient
  rw [List.length_eq_zero, List.filter_eq_nil_iff, List.find?_eq_none]

theorem countIngredient_recipeIngredientsAdd (db : DB) (rid iid u : Nat) (n : String) :
    countIngredient (recipeIngredientsAdd db rid iid) u n = countIngredient db u n := rfl

theorem countIngredient_append_single (db : DB) (ig : Ingredient) (iid : Nat)
    (u' : Nat) (n' : String) :
    countIngredient
        { db with ingredients := db.ingredients ++ [ig], nextIngredientId := iid } u' n'
      = countIngredient db u' n' + (if ig.user = u' ∧ ig.name = n' then 1 else 0) := by
  unfold countIngredient
  simp only [List.filter_append, List.length_append]
  congr 1
  by_cases hu : ig.user = u'
  · by_cases hn : ig.name = n'
    · simp [hu, hn]
    · simp [hu, hn]
  · simp [hu]

theorem countIngredient_getOrCreateIngredient (db : DB) (u : Nat) (n : String)
    (u' : Nat) (n' : String) :
    countIngredient ((getOrCreateIngredient db u n).1) u' n'
      = countIngredient db u' n'
        + (if countIngredient db u n = 0 ∧ u' = u ∧ n' = n then 1 else 0) := by
  unfold getOrCreateIngredient
  split
  · rename_i i hf
    have h0 : countIngredient db u n ≠ 0 := fun h => by
      rw [(countIngredient_eq_zero_iff db u n).mp h] at hf
      exact Option.noConfusion hf
    simp [h0]
  · rename_i hf
    have h0 : countIngredient db u n = 0 := (countIngredient_eq_zero_iff db u n).mpr hf
    rw [countIngredient_append_single]
    simp only [h0, true_and]
    congr 1
    refine if_congr ?_ rfl rfl
    constructor
    · rintro ⟨h1, h2⟩; exact ⟨h1.symm, h2.symm⟩
    · rintro ⟨h1, h2⟩; exact ⟨h1.symm, h2.symm⟩

theorem countIngredient_step (u rid : Nat) (db : DB) (n : String) (u' : Nat) (n' : String) :
    countIngredient (getOrCreateIngredientStep u rid db n) u' n'
      = countIngredient db u' n'
        + (if countIngredient db u n = 0 ∧ u' = u ∧ n' = n then 1 else 0) := by
  unfold getOrCreateIngredientStep
  rw [countIngredient_recipeIngredientsAdd, countIngredient_getOrCreateIngredient]

theorem countIngredient_fold (u rid : Nat) (names : List String) :
    ∀ (db : DB) (u' : Nat) (n' : String),
      countIngredient (getOrCreateIngredients db u rid names) u' n'
        = if u' = u ∧ n' ∈ names ∧ countIngredient db u' n' = 0 then 1
          else countIngredient db u' n' := by
  induction names with
  | nil => intro db u' n'; simp [getOrCreateIngredients_nil]
  | cons m rest ih =>
      intro db u' n'
      rw [getOrCreateIngredients_cons, ih (getOrCreateIngredientStep u rid db m) u' n',
        countIngredient_step]
      by_cases hu : u' = u
      · subst hu
        by_cases hm : n' = m
        · subst hm
          by_cases hcm : countIngredient db u' n' = 0
          · simp [hcm, List.mem_cons]
          · simp [hcm, List.mem_cons]
        · simp [hm, List.mem_cons]
      · simp [hu]

/-! ### Attachment and reuse lemmas for the ingredient get-or-create fold -/

theorem findRecipe_getOrCreateIngredient (db : DB) (u : Nat) (n : String) (rid : Nat) :
    ((getOrCreateIngredient db u n).1).findRecipe rid = db.findRecipe rid := by
  unfold DB.findRecipe
  rw [recipes_getOrCreateIngredient]

theorem findIngredient_user_name {db : DB} {u : Nat} {n : String} {i : Ingredient}
    (h : db.findIngredient u n = some i) :
    i ∈ db.ingredients ∧ i.user = u ∧ i.name = n := by
  unfold DB.findIngredient at h
  refine ⟨List.mem_of_find?_eq_some h, ?_⟩
  have := List.find?_some h
  simpa using this

theorem getOrCreateIngredient_snd_spec (db : DB) (u : Nat) (n : String) :
    ∃ i ∈ ((getOrCreateIngredient db u n).1).ingredients,
      i.user = u ∧ i.name = n ∧ i.id = (getOrCreateIngredient db u n).2 := by
  unfold getOrCreateIngredient
  split
  · rename_i i hf
    obtain ⟨hi, hu, hn⟩ := findIngredient_user_name hf
    exact ⟨i, hi, hu, hn, rfl⟩
  · exact ⟨⟨db.nextIngredientId, u, n⟩, List.mem_append_right _ (by simp), rfl, rfl, rfl⟩

theorem recipeIngredientIds_recipeIngredientsAdd_self {db : DB} {rid : Nat} (iid : Nat)
    {r : Recipe} (hr : db.findRecipe rid = some r) :
    recipeIngredientIds (recipeIngredientsAdd db rid iid) rid = mmAdd r.ingredients iid := by
  have hid : r.id = rid := findRecipe_id hr
  unfold recipeIngredientIds
  rw [recipeIngredientsAdd,
    findRecipe_mapRecipe db rid (fun r => { r with ingredients := mmAdd r.ingredients iid })
      (fun _ => rfl) rid, hr]
  simp [hid]

theorem getOrCreateIngredientStep_attaches (u rid : Nat) (db : DB) (n : String)
    (r : Recipe) (hr : db.findRecipe rid = some r) :
    ∃ i ∈ (getOrCreateIngredientStep u rid db n).ingredients,
      i.user = u ∧ i.name = n ∧
        i.id ∈ recipeIngredientIds (getOrCreateIngredientStep u rid db n) rid := by
  obtain ⟨i, hi, hu, hn, hid⟩ := getOrCreateIngredient_snd_spec db u n
  have hr₁ : ((getOrCreateIngredient db u n).1).findRecipe rid = some r := by
    rw [findRecipe_getOrCreateIngredient]; exact hr
  refine ⟨i, ?_, hu, hn, ?_⟩
  · show i ∈ (recipeIngredientsAdd _ rid _).ingredients
    rw [ingredients_recipeIngredientsAdd]
    exact hi
  · show i.id ∈ recipeIngredientIds (recipeIngredientsAdd _ rid _) rid
    rw [recipeIngredientIds_recipeIngredientsAdd_self (getOrCreateIngredient db u n).2 hr₁,
      hid]
    exact mem_mmAdd_self _ _

theorem recipeIngredientIds_mono {db db' : DB} (h : IngOpLE db db') (rid : Nat) :
    ∀ x ∈ recipeIngredientIds db rid, x ∈ recipeIngredientIds db' rid := by
  intro x hx
  unfold recipeIngredientIds at *
  cases hr : db.findRecipe rid with
  | none => rw [hr] at hx; simp at hx
  | some r =>
      rw [hr] at hx
      obtain ⟨r', hr', hle⟩ := h.find_some rid r hr
      rw [hr']
      simpa using hle.ings_mono x (by simpa using hx)

theorem getOrCreateIngredients_attaches (u rid : Nat) (names : List String) :
    ∀ (db : DB) (r : Recipe), db.findRecipe rid = some r →
      ∀ n ∈ names,
        ∃ i ∈ (getOrCreateIngredients db u rid names).ingredients,
          i.user = u ∧ i.name = n ∧
            i.id ∈ recipeIngredientIds (getOrCreateIngredients db u rid names) rid := by
  induction names with
  | nil => intro db r hr n hn; simp at hn
  | cons m rest ih =>
      intro db r hr n hn
      have hstep : IngOpLE db (getOrCreateIngredientStep u rid db m) := ingOpLE_step u rid db m
      obtain ⟨r₁, hr₁, _⟩ := hstep.find_some rid r hr
      have hrest : IngOpLE (getOrCreateIngredientStep u rid db m)
          (getOrCreateIngredients (getOrCreateIngredientStep u rid db m) u rid rest) :=
        ingOpLE_fold u rid rest _
      rcases List.mem_cons.mp hn with h | h
      · subst h
        obtain ⟨i, hi, hu, hn', hid⟩ := getOrCreateIngredientStep_attaches u rid db n r hr
        rw [getOrCreateIngredients_cons]
        exact ⟨i, hrest.ings_mono i hi, hu, hn',
          recipeIngredientIds_mono hrest rid i.id hid⟩
      · rw [getOrCreateIngredients_cons]
        exact ih (getOrCreateIngredientStep u rid db m) r₁ hr₁ n h

theorem ings_step (u rid : Nat) (db : DB) (m : String) :
    (getOrCreateIngredientStep u rid db m).ingredients
      = ((getOrCreateIngredient db u m).1).ingredients := rfl

theorem getOrCreateIngredient_ings_cases (db : DB) (u : Nat) (m : String) :
    ((getOrCreateIngredient db u m).1).ingredients = db.ingredients ∨
      ((getOrCreateIngredient db u m).1).ingredients
        = db.ingredients ++ [⟨db.nextIngredientId, u, m⟩] := by
  unfold getOrCreateIngredient
  split
  · exact Or.inl rfl
  · exact Or.inr rfl

theorem getOrCreateIngredients_reuses (u rid : Nat) (names : List String) :
    ∀ (db : DB) (r : Recipe) (i₀ : Ingredient) (n : String),
      db.findRecipe rid = some r →
      i₀ ∈ db.ingredients → i₀.user = u → i₀.name = n →
      (∀ i ∈ db.ingredients, i.user = u → i.name = n → i = i₀) →
      n ∈ names →
      i₀.id ∈ recipeIngredientIds (getOrCreateIngredients db u rid names) rid := by
  induction names with
  | nil => intro db r i₀ n _ _ _ _ _ hn; simp at hn
  | cons m rest ih =>
      intro db r i₀ n hr hi₀ hu hn huniq hmem
      rw [getOrCreateIngredients_cons]
      by_cases hm : m = n
      · subst hm
        obtain ⟨i, hf⟩ : ∃ i, db.findIngredient u m = some i := by
          cases hft : db.findIngredient u m with
          | none =>
              exfalso
              unfold DB.findIngredient at hft
              have := List.find?_eq_none.mp hft i₀ hi₀
              simp [hu, hn] at this
          | some i => exact ⟨i, rfl⟩
        obtain ⟨him, hiu, hin⟩ := findIngredient_user_name hf
        have hieq : i = i₀ := huniq i him hiu hin
        have hstep_eq : getOrCreateIngredientStep u rid db m
            = recipeIngredientsAdd db rid i.id := by
          unfold getOrCreateIngredientStep getOrCreateIngredient
          rw [hf]
        have hattach : i₀.id ∈ recipeIngredientIds (getOrCreateIngredientStep u rid db m) rid := by
          rw [hstep_eq, recipeIngredientIds_recipeIngredientsAdd_self i.id hr, hieq]
          exact mem_mmAdd_self _ _
        exact recipeIngredientIds_mono (ingOpLE_fold u rid rest _) rid i₀.id hattach
      · have hstep : IngOpLE db (getOrCreateIngredientStep u rid db m) :=
          ingOpLE_step u rid db m
        obtain ⟨r₁, hr₁, _⟩ := hstep.find_some rid r hr
        have hi₀' : i₀ ∈ (getOrCreateIngredientStep u rid db m).ingredients :=
          hstep.ings_mono i₀ hi₀
        have huniq' : ∀ i ∈ (getOrCreateIngredientStep u rid db m).ingredients,
            i.user = u → i.name = n → i = i₀ := by
          intro i hi hiu hin
          rw [ings_step] at hi
          rcases getOrCreateIngredient_ings_cases db u m with hcase | hcase
          · rw [hcase] at hi
            exact huniq i hi hiu hin
          · rw [hcase] at hi
            rcases List.mem_append.mp hi with h1 | h2
            · exact huniq i h1 hiu hin
            · exfalso
              have : i = ⟨db.nextIngredientId, u, m⟩ := List.mem_singleton.mp h2
              rw [this] at hin
              exact hm hin
        have hmem' : n ∈ rest := by
          rcases List.mem_cons.mp hmem with h | h
          · exact absurd h.symm hm
          · exact h
        exact ih (getOrCreateIngredientStep u rid db m) r₁ i₀ n hr₁ hi₀' hu hn huniq' hmem'

/-! ### Cross-preservation between tag and ingredient operations -/

theorem countTag_congr {db db' : DB} (h : db'.tags = db.tags) (u : Nat) (n : String) :
    countTag db' u n = countTag db u n := by
  unfold countTag
  rw [h]

theorem countIngredient_congr {db db' : DB} (h : db'.ingredients = db.ingredients)
    (u : Nat) (n : String) :
    countIngredient db' u n = countIngredient db u n := by
  unfold countIngredient
  rw [h]

theorem recipeTagIds_ingOp {db db' : DB} (h : IngOpLE db db') (rid : Nat) :
    recipeTagIds db' rid = recipeTagIds db rid := by
  unfold recipeTagIds
  cases hr : db.findRecipe rid with
  | none => rw [h.find_none rid hr]
  | some r =>
      obtain ⟨r', hr', hle⟩ := h.find_some rid r hr
      rw [hr']
      simp [hle.tags_eq]

theorem recipeIngredientIds_tagOp {db db' : DB} (h : TagOpLE db db') (rid : Nat) :
    recipeIngredientIds db' rid = recipeIngredientIds db rid := by
  unfold recipeIngredientIds
  cases hr : db.findRecipe rid with
  | none => rw [h.find_none rid hr]
  | some r =>
      obtain ⟨r', hr', hle⟩ := h.find_some rid r hr
      rw [hr']
      simp [hle.ings_eq]

/-! ### Facts about clearing, scalar assignment and validation -/

theorem recipeTagIds_clearTags_self (db : DB) (rid : Nat) :
    recipeTagIds (db.mapRecipe rid (fun r => { r with tags := [] })) rid = [] := by
  unfold recipeTagIds
  rw [findRecipe_mapRecipe db rid (fun r => { r with tags := [] }) (fun _ => rfl) rid]
  cases hr : db.findRecipe rid with
  | none => rfl
  | some r =>
      have hid := findRecipe_id hr
      simp [hid]

theorem findRecipe_clearTags_self {db : DB} {rid : Nat} {r : Recipe}
    (hr : db.findRecipe rid = some r) :
    (db.mapRecipe rid (fun r => { r with tags := [] })).findRecipe rid
      = some { r with tags := [] } := by
  have hid := findRecipe_id hr
  rw [findRecipe_mapRecipe db rid (fun r => { r with tags := [] }) (fun _ => rfl) rid, hr]
  simp [hid]

theorem clearTags_ingOp_none (db : DB) (rid rid' : Nat)
    (h : db.findRecipe rid' = none) :
    (db.mapRecipe rid (fun r => { r with tags := [] })).findRecipe rid' = none := by
  rw [findRecipe_mapRecipe db rid (fun r => { r with tags := [] }) (fun _ => rfl) rid', h]
  rfl

theorem recipeIngredientIds_clearTags (db : DB) (rid rid' : Nat) :
    recipeIngredientIds (db.mapRecipe rid (fun r => { r with tags := [] })) rid'
      = recipeIngredientIds db rid' := by
  unfold recipeIngredientIds
  rw [findRecipe_mapRecipe db rid (fun r => { r with tags := [] }) (fun _ => rfl) rid']
  cases hr : db.findRecipe rid' with
  | none => rfl
  | some r => by_cases hid : r.id = rid <;> simp [hid]

theorem user_setScalars_none {data : RecipeInput} (r : Recipe) (h : data.user = none) :
    (setScalars r data).user = r.user := by
  unfold setScalars
  rw [h]
  rfl

theorem recipeTagIds_mapScalars (db : DB) (rid : Nat) (data : RecipeInput) (rid' : Nat) :
    recipeTagIds (db.mapRecipe rid (fun r => setScalars r data)) rid'
      = recipeTagIds db rid' := by
  unfold recipeTagIds
  rw [findRecipe_mapRecipe db rid (fun r => setScalars r data) (fun _ => rfl) rid']
  cases hr : db.findRecipe rid' with
  | none => rfl
  | some r => by_cases hid : r.id = rid <;> simp [hid, setScalars]

theorem recipeIngredientIds_mapScalars (db : DB) (rid : Nat) (data : RecipeInput)
    (rid' : Nat) :
    recipeIngredientIds (db.mapRecipe rid (fun r => setScalars r data)) rid'
      = recipeIngredientIds db rid' := by
  unfold recipeIngredientIds
  rw [findRecipe_mapRecipe db rid (fun r => setScalars r data) (fun _ => rfl) rid']
  cases hr : db.findRecipe rid' with
  | none => rfl
  | some r => by_cases hid : r.id = rid <;> simp [hid, setScalars]

theorem validate_user_none (p : RecipeInput) : (RecipeSerializerValidate p).user = none := by
  show keepWritable RecipeSerializerFields RecipeSerializerReadOnly "user" p.user = none
  unfold keepWritable
  rw [if_neg (by decide)]

/-! ### Case equations for `RecipeSerializerUpdate` -/

theorem update_ok_no_tags (db : DB) (u rid : Nat) (data : RecipeInput)
    (hing : data.ingredients = none) (htags : data.tags = none) :
    RecipeSerializerUpdate db u rid data
      = ⟨db.mapRecipe rid (fun r => setScalars r data), true⟩ := by
  unfold RecipeSerializerUpdate
  rw [htags, hing]

theorem update_ok_with_tags (db : DB) (u rid : Nat) (data : RecipeInput)
    (names : List String)
    (hing : data.ingredients = none) (htags : data.tags = some names) :
    RecipeSerializerUpdate db u rid data
      = ⟨(getOrCreateTags (db.mapRecipe rid (fun r => { r with tags := [] })) u rid
            names).mapRecipe rid (fun r => setScalars r data), true⟩ := by
  unfold RecipeSerializerUpdate
  rw [htags, hing]

theorem update_err_no_tags (db : DB) (u rid : Nat) (data : RecipeInput)
    (l : List String) (hing : data.ingredients = some l) (htags : data.tags = none) :
    RecipeSerializerUpdate db u rid data = ⟨db, false⟩ := by
  unfold RecipeSerializerUpdate
  rw [htags, hing]

theorem update_err_with_tags (db : DB) (u rid : Nat) (data : RecipeInput)
    (l names : List String)
    (hing : data.ingredients = some l) (htags : data.tags = some names) :
    RecipeSerializerUpdate db u rid data
      = ⟨getOrCreateTags (db.mapRecipe rid (fun r => { r with tags := [] })) u rid names,
          false⟩ := by
  unfold RecipeSerializerUpdate
  rw [htags, hing]

/-! ### The created recipe row is found after a create -/

theorem findRecipe_append_fresh (db : DB) (r : Recipe) (k : Nat)
    (hfresh : ∀ r' ∈ db.recipes, r'.id ≠ r.id) :
    DB.findRecipe { db with recipes := db.recipes ++ [r], nextRecipeId := k } r.id
      = some r := by
  unfold DB.findRecipe
  rw [List.find?_append]
  have h1 : db.recipes.find? (fun x => x.id == r.id) = none :=
    List.find?_eq_none.mpr (fun x hx => by simp [hfresh x hx])
  rw [h1]
  simp

/-! ### Sorting is a permutation -/

theorem insertDescBy_perm {α β : Type} [LinearOrder β] (key : α → β) (x : α) :
    ∀ l : List α, (insertDescBy key x l).Perm (x :: l)
  | [] => List.Perm.refl _
  | y :: ys => by
      unfold insertDescBy
      split
      · exact List.Perm.refl _
      · exact ((insertDescBy_perm key x ys).cons y).trans (List.Perm.swap x y ys)

theorem sortDescBy_perm {α β : Type} [LinearOrder β] (key : α → β) :
    ∀ l : List α, (sortDescBy key l).Perm l
  | [] => List.Perm.refl _
  | x :: xs =>
      (insertDescBy_perm key x (sortDescBy key xs)).trans
        ((sortDescBy_perm key xs).cons x)

/-! ### Small unfolding helpers -/

theorem tags_mapRecipe (db : DB) (rid : Nat) (f : Recipe → Recipe) :
    (db.mapRecipe rid f).tags = db.tags := rfl

theorem ingredients_mapRecipe (db : DB) (rid : Nat) (f : Recipe → Recipe) :
    (db.mapRecipe rid f).ingredients = db.ingredients := rfl

/-! ### Claim theorems -/

/-- C2: for every update of a recipe in which a `tags` list is supplied,
including the empty list, all existing tag associations are first cleared
and then exactly the supplied tags are re-attached via fetch-or-create;
in particular patching `tags` to the empty list leaves zero tag
associations. -/
theorem update_tags_clear_and_reattach (db : DB) (u rid : Nat) (data : RecipeInput)
    (ts : List String) (htags : data.tags = some ts) :
    (∀ x ∈ recipeTagIds (RecipeSerializerUpdate db u rid data).db rid,
       ∃ t ∈ (RecipeSerializerUpdate db u rid data).db.tags,
         t.id = x ∧ t.user = u ∧ t.name ∈ ts) ∧
    (∀ r, db.findRecipe rid = some r →
       ∀ n ∈ ts,
         ∃ t ∈ (RecipeSerializerUpdate db u rid data).db.tags,
           t.user = u ∧ t.name = n ∧
             t.id ∈ recipeTagIds (RecipeSerializerUpdate db u rid data).db rid) ∧
    (ts = [] → recipeTagIds (RecipeSerializerUpdate db u rid data).db rid = []) := by
  have h1 : ∀ x ∈ recipeTagIds
        (getOrCreateTags (db.mapRecipe rid (fun r => { r with tags := [] })) u rid ts) rid,
      ∃ t ∈ (getOrCreateTags (db.mapRecipe rid (fun r => { r with tags := [] }))
          u rid ts).tags,
        t.id = x ∧ t.user = u ∧ t.name ∈ ts := by
    intro x hx
    rcases recipeTagIds_fold_subset u rid ts _ rid x hx with h | h
    · rw [recipeTagIds_clearTags_self] at h
      simp at h
    · exact h
  have h2 : ∀ r, db.findRecipe rid = some r → ∀ n ∈ ts,
      ∃ t ∈ (getOrCreateTags (db.mapRecipe rid (fun r => { r with tags := [] }))
          u rid ts).tags,
        t.user = u ∧ t.name = n ∧
          t.id ∈ recipeTagIds
            (getOrCreateTags (db.mapRecipe rid (fun r => { r with tags := [] }))
              u rid ts) rid := by
    intro r hr n hn
    exact getOrCreateTags_attaches u rid ts _ { r with tags := [] }
      (findRecipe_clearTags_self hr) n hn
  have h3 : ts = [] → recipeTagIds
      (getOrCreateTags (db.mapRecipe rid (fun r => { r with tags := [] })) u rid ts) rid
        = [] := by
    intro h
    subst h
    rw [getOrCreateTags_nil, recipeTagIds_clearTags_self]
  cases hing : data.ingredients with
  | some l =>
      rw [update_err_with_tags db u rid data l ts hing htags]
      exact ⟨h1, h2, h3⟩
  | none =>
      rw [update_ok_with_tags db u rid data ts hing htags]
      dsimp only
      rw [tags_mapRecipe]
      refine ⟨?_, ?_, ?_⟩
      · intro x hx
        rw [recipeTagIds_mapScalars] at hx
        exact h1 x hx
      · intro r hr n hn
        rw [recipeTagIds_mapScalars]
        exact h2 r hr n hn
      · intro h
        rw [recipeTagIds_mapScalars]
        exact h3 h

/-- C2 witness: patching the tags of the sample recipe to the empty list
leaves it with no tag associations. -/
theorem update_tags_clear_and_reattach_witness :
    ({ tags := some [] : RecipeInput }.tags = some ([] : List String)) ∧
      recipeTagIds
        (RecipeSerializerUpdate sampleDB 0 0 { tags := some [] }).db 0 = [] :=
  ⟨rfl,
    (update_tags_clear_and_reattach sampleDB 0 0 { tags := some [] } [] rfl).2.2 rfl⟩

/-- C9: an update whose payload contains no `tags` key leaves the tag
associations of every recipe unchanged. -/
theorem update_without_tags_preserves_tags (db : DB) (u rid : Nat) (data : RecipeInput)
    (htags : data.tags = none) (rid' : Nat) :
    recipeTagIds (RecipeSerializerUpdate db u rid data).db rid'
      = recipeTagIds db rid' := by
  cases hing : data.ingredients with
  | some l => rw [update_err_no_tags db u rid data l hing htags]
  | none =>
      rw [update_ok_no_tags db u rid data hing htags]
      dsimp only
      exact recipeTagIds_mapScalars db rid data rid'

/-- C9 witness: a title-only update of the sample recipe keeps its tag
list. -/
theorem update_without_tags_preserves_tags_witness :
    recipeTagIds
        (RecipeSerializerUpdate sampleDB 0 0 { title := some "New title" }).db 0
      = recipeTagIds sampleDB 0 :=
  update_without_tags_preserves_tags sampleDB 0 0 { title := some "New title" } rfl 0

/-- C3 counterexample: updating a recipe with a supplied ingredient list
does not fetch-or-create and attach the named ingredients (here no
ingredient row named salt exists afterwards at all), refuting the claim
at this input. -/
theorem update_ingredients_not_reconciled_cex :
    ¬ ∃ i ∈ (RecipeSerializerUpdate
        { tags := [], ingredients := [],
          recipes := [{ id := 0, user := 0, title := "Soup", time_minutes := 5,
                        price := 3, link := "", description := "",
                        tags := [], ingredients := [] }],
          nextTagId := 0, nextIngredientId := 0, nextRecipeId := 1 }
        0 0 { ingredients := some ["salt"] }).db.ingredients,
      i.user = 0 ∧ i.name = "salt" := by
  decide

/-- C3 amended: when an `ingredients` list is supplied on update the
serializer does not reconcile ingredients at all: the update never calls
the ingredient fetch-or-create helper, the leftover entry hits `setattr`
on the many-to-many descriptor and the request errors before
`instance.save()`; the ingredient table and the ingredient associations
of every recipe are unchanged. -/
theorem update_ingredients_unreconciled (db : DB) (u rid : Nat) (data : RecipeInput)
    (l : List String) (hing : data.ingredients = some l) :
    (RecipeSerializerUpdate db u rid data).ok = false ∧
    (RecipeSerializerUpdate db u rid data).db.ingredients = db.ingredients ∧
    ∀ rid', recipeIngredientIds (RecipeSerializerUpdate db u rid data).db rid'
      = recipeIngredientIds db rid' := by
  cases htags : data.tags with
  | none =>
      rw [update_err_no_tags db u rid data l hing htags]
      exact ⟨rfl, rfl, fun _ => rfl⟩
  | some names =>
      rw [update_err_with_tags db u rid data l names hing htags]
      dsimp only
      refine ⟨rfl, ?_, ?_⟩
      · rw [(tagOpLE_fold u rid names
          (db.mapRecipe rid (fun r => { r with tags := [] }))).ings_eq,
          ingredients_mapRecipe]
      · intro rid'
        rw [recipeIngredientIds_tagOp (tagOpLE_fold u rid names _) rid',
          recipeIngredientIds_clearTags]

/-- C3 amended witness: the sample update with a supplied ingredient list
errors and leaves the ingredient table untouched. -/
theorem update_ingredients_unreconciled_witness :
    (({ ingredients := some ["Pepper"] } : RecipeInput).ingredients
        = some ["Pepper"]) ∧
      ((RecipeSerializerUpdate sampleDB 0 0 { ingredients := some ["Pepper"] }).ok
          = false ∧
        (RecipeSerializerUpdate sampleDB 0 0
            { ingredients := some ["Pepper"] }).db.ingredients
          = sampleDB.ingredients ∧
        ∀ rid', recipeIngredientIds
            (RecipeSerializerUpdate sampleDB 0 0
              { ingredients := some ["Pepper"] }).db rid'
          = recipeIngredientIds sampleDB rid') :=
  ⟨rfl, update_ingredients_unreconciled sampleDB 0 0
    { ingredients := some ["Pepper"] } ["Pepper"] rfl⟩

/-! ### Count bounds from well-formedness -/

theorem countTag_ne_zero_of_mem {db : DB} {t₀ : Tag} {u : Nat} {n : String}
    (ht₀ : t₀ ∈ db.tags) (hu : t₀.user = u) (hn : t₀.name = n) :
    countTag db u n ≠ 0 := by
  have hmem : t₀ ∈ db.tags.filter (fun t => t.user == u && t.name == n) :=
    List.mem_filter.mpr ⟨ht₀, by simp [hu, hn]⟩
  intro h
  unfold countTag at h
  rw [List.length_eq_zero] at h
  rw [h] at hmem
  exact absurd hmem (List.not_mem_nil t₀)

theorem countIngredient_ne_zero_of_mem {db : DB} {i₀ : Ingredient} {u : Nat} {n : String}
    (hi₀ : i₀ ∈ db.ingredients) (hu : i₀.user = u) (hn : i₀.name = n) :
    countIngredient db u n ≠ 0 := by
  have hmem : i₀ ∈ db.ingredients.filter (fun i => i.user == u && i.name == n) :=
    List.mem_filter.mpr ⟨hi₀, by simp [hu, hn]⟩
  intro h
  unfold countIngredient at h
  rw [List.length_eq_zero] at h
  rw [h] at hmem
  exact absurd hmem (List.not_mem_nil i₀)

theorem length_le_one_of_nodup_allEq {α : Type} {l : List α}
    (hnd : l.Nodup) (hall : ∀ a ∈ l, ∀ b ∈ l, a = b) : l.length ≤ 1 := by
  cases l with
  | nil => simp
  | cons a t =>
      cases t with
      | nil => simp
      | cons b t2 =>
          exfalso
          have hab : a = b :=
            hall a (List.mem_cons_self a _) b (List.mem_cons_of_mem a (List.mem_cons_self b _))
          have : a ≠ b := by
            have := (List.nodup_cons.mp hnd).1
            intro h
            exact this (h ▸ List.mem_cons_self b t2)
          exact this hab

theorem countTag_le_one {db : DB} (hwf : db.WF) (u : Nat) (n : String) :
    countTag db u n ≤ 1 := by
  obtain ⟨-, -, -, huniq, -, -, hnd, -, -⟩ := hwf
  apply length_le_one_of_nodup_allEq (hnd.filter _)
  intro a ha b hb
  obtain ⟨ha', hpa⟩ := List.mem_filter.mp ha
  obtain ⟨hb', hpb⟩ := List.mem_filter.mp hb
  simp only [Bool.and_eq_true, beq_iff_eq] at hpa hpb
  exact huniq a ha' b hb' (hpa.1.trans hpb.1.symm) (hpa.2.trans hpb.2.symm)

theorem countIngredient_le_one {db : DB} (hwf : db.WF) (u : Nat) (n : String) :
    countIngredient db u n ≤ 1 := by
  obtain ⟨-, -, -, -, huniq, -, -, hnd, -⟩ := hwf
  apply length_le_one_of_nodup_allEq (hnd.filter _)
  intro a ha b hb
  obtain ⟨ha', hpa⟩ := List.mem_filter.mp ha
  obtain ⟨hb', hpb⟩ := List.mem_filter.mp hb
  simp only [Bool.and_eq_true, beq_iff_eq] at hpa hpb
  exact huniq a ha' b hb' (hpa.1.trans hpb.1.symm) (hpa.2.trans hpb.2.symm)

theorem recipeTagIds_eq_of_find {db : DB} {rid : Nat} {r : Recipe}
    (h : db.findRecipe rid = some r) : recipeTagIds db rid = r.tags := by
  unfold recipeTagIds
  rw [h]
  rfl

theorem recipeIngredientIds_eq_of_find {db : DB} {rid : Nat} {r : Recipe}
    (h : db.findRecipe rid = some r) : recipeIngredientIds db rid = r.ingredients := by
  unfold recipeIngredientIds
  rw [h]
  rfl

/-! ### C5: owner immutability -/

theorem update_user_preserved (db : DB) (u rid : Nat) (data : RecipeInput)
    (huser : data.user = none) (r : Recipe) (hr : db.findRecipe rid = some r) :
    ((RecipeSerializerUpdate db u rid data).db.findRecipe rid).map Recipe.user
      = some r.user := by
  cases htags : data.tags with
  | none =>
      cases hing : data.ingredients with
      | some l =>
          rw [update_err_no_tags db u rid data l hing htags]
          dsimp only
          rw [hr]
          rfl
      | none =>
          rw [update_ok_no_tags db u rid data hing htags]
          dsimp only
          rw [findRecipe_mapRecipe db rid (fun r => setScalars r data) (fun _ => rfl) rid,
            hr]
          have hid := findRecipe_id hr
          simp [hid, user_setScalars_none r huser]
  | some names =>
      have hclear : (db.mapRecipe rid (fun r => { r with tags := [] })).findRecipe rid
          = some { r with tags := [] } := findRecipe_clearTags_self hr
      obtain ⟨r', hr', hle⟩ :=
        (tagOpLE_fold u rid names
          (db.mapRecipe rid (fun r => { r with tags := [] }))).find_some rid _ hclear
      have hu' : r'.user = r.user := hle.user_eq
      cases hing : data.ingredients with
      | some l =>
          rw [update_err_with_tags db u rid data l names hing htags]
          dsimp only
          rw [hr', Option.map_some', hu']
      | none =>
          rw [update_ok_with_tags db u rid data names hing htags]
          dsimp only
          rw [findRecipe_mapRecipe _ rid (fun r => setScalars r data) (fun _ => rfl) rid,
            hr']
          have hid : r'.id = rid := findRecipe_id hr'
          simp [hid, user_setScalars_none r' huser, hu']

/-- C5: for every create or update through the recipe serializer, the
owning user cannot be changed by the request payload: validation against
`RecipeSerializer.Meta` drops a `user` key, so after an update the recipe
still belongs to its original owner, and a created recipe belongs to the
authenticated caller. -/
theorem owner_immutable_via_serializer (db : DB) (u rid : Nat) (p : RecipeInput) :
    (∀ r, db.findRecipe rid = some r →
       ((RecipeSerializerUpdate db u rid (RecipeSerializerValidate p)).db.findRecipe
           rid).map Recipe.user = some r.user) ∧
    ((∀ r' ∈ db.recipes, r'.id < db.nextRecipeId) →
       ((RecipeSerializerCreate db u (RecipeSerializerValidate p)).1.findRecipe
           (RecipeSerializerCreate db u (RecipeSerializerValidate p)).2).map
           Recipe.user = some u) := by
  constructor
  · intro r hr
    exact update_user_preserved db u rid (RecipeSerializerValidate p)
      (validate_user_none p) r hr
  · intro hfresh
    set data := RecipeSerializerValidate p with hdata
    set r0 : Recipe :=
      { id := db.nextRecipeId, user := u,
        title := data.title.getD "",
        time_minutes := data.time_minutes.getD 0,
        price := data.price.getD 0,
        link := data.link.getD "",
        description := data.description.getD "",
        tags := [], ingredients := [] } with hr0
    set db1 : DB :=
      { db with recipes := db.recipes ++ [r0], nextRecipeId := db.nextRecipeId + 1 }
      with hdb1
    have hfind1 : db1.findRecipe db.nextRecipeId = some r0 := by
      rw [hdb1]
      exact findRecipe_append_fresh db r0 (db.nextRecipeId + 1)
        (fun r' hr' => Nat.ne_of_lt (hfresh r' hr'))
    have hfst : (RecipeSerializerCreate db u data).1
        = getOrCreateIngredients
            (getOrCreateTags db1 u db.nextRecipeId (data.tags.getD []))
            u db.nextRecipeId (data.ingredients.getD []) := rfl
    have hsnd : (RecipeSerializerCreate db u data).2 = db.nextRecipeId := rfl
    rw [hfst, hsnd]
    obtain ⟨r2, hfind2, hle2⟩ :=
      (tagOpLE_fold u db.nextRecipeId (data.tags.getD []) db1).find_some _ r0 hfind1
    obtain ⟨r3, hfind3, hle3⟩ :=
      (ingOpLE_fold u db.nextRecipeId (data.ingredients.getD [])
        (getOrCreateTags db1 u db.nextRecipeId (data.tags.getD []))).find_some
        _ r2 hfind2
    rw [hfind3, Option.map_some', hle3.user_eq, hle2.user_eq]

/-- C5 witness: a payload that tries to set a different owner is ignored
both on update of the sample recipe and on create. -/
theorem owner_immutable_via_serializer_witness :
    (((RecipeSerializerUpdate sampleDB 0 0
        (RecipeSerializerValidate { user := some 9, title := some "Mine" })).db.findRecipe
          0).map Recipe.user = some 0) ∧
    (((RecipeSerializerCreate sampleDB 0
        (RecipeSerializerValidate { user := some 9, title := some "Mine" })).1.findRecipe
          (RecipeSerializerCreate sampleDB 0
            (RecipeSerializerValidate { user := some 9, title := some "Mine" })).2).map
        Recipe.user = some 0) := by
  have h := owner_immutable_via_serializer sampleDB 0 0 { user := some 9, title := some "Mine" }
  have hr : sampleDB.findRecipe 0 = some
      { id := 0, user := 0, title := "Soup", time_minutes := 5, price := 3,
        link := "", description := "warm", tags := [0], ingredients := [0] } := by
    decide
  exact ⟨h.1 _ hr, h.2 (by decide)⟩

/-- C1: a create with nested tag and ingredient name lists builds the
recipe for the caller and, for each nested name, attaches a tag or
ingredient owned by the caller; an existing row with that name is reused
(no duplicate row is created) and a missing one is created. -/
theorem create_get_or_create_spec (db : DB) (u : Nat) (data : RecipeInput)
    (db' : DB) (rid : Nat) (hwf : db.WF)
    (heq : RecipeSerializerCreate db u data = (db', rid)) :
    (∃ rec, db'.findRecipe rid = some rec ∧ rec.user = u ∧
       rec.title = data.title.getD "") ∧
    (∀ n ∈ data.tags.getD [],
       ∃ t ∈ db'.tags, t.user = u ∧ t.name = n ∧ t.id ∈ recipeTagIds db' rid) ∧
    (∀ n ∈ data.ingredients.getD [],
       ∃ i ∈ db'.ingredients, i.user = u ∧ i.name = n ∧
         i.id ∈ recipeIngredientIds db' rid) ∧
    (∀ n ∈ data.tags.getD [], ∀ t₀ ∈ db.tags, t₀.user = u → t₀.name = n →
       t₀ ∈ db'.tags ∧ t₀.id ∈ recipeTagIds db' rid ∧
         countTag db' u n = countTag db u n) ∧
    (∀ n ∈ data.ingredients.getD [], ∀ i₀ ∈ db.ingredients, i₀.user = u → i₀.name = n →
       i₀ ∈ db'.ingredients ∧ i₀.id ∈ recipeIngredientIds db' rid ∧
         countIngredient db' u n = countIngredient db u n) ∧
    (∀ n ∈ data.tags.getD [], countTag db u n = 0 → countTag db' u n = 1) ∧
    (∀ n ∈ data.ingredients.getD [], countIngredient db u n = 0 →
       countIngredient db' u n = 1) := by
  have hdb' : db' = (RecipeSerializerCreate db u data).1 := by rw [heq]
  have hrid : rid = (RecipeSerializerCreate db u data).2 := by rw [heq]
  subst hdb'
  subst hrid
  obtain ⟨hT, hI, hR, hTuniq, hIuniq, hRuniq, hTnd, hInd, hRnd⟩ := hwf
  set names := data.tags.getD [] with hnames
  set ings := data.ingredients.getD [] with hingsdef
  set r0 : Recipe :=
    { id := db.nextRecipeId, user := u,
      title := data.title.getD "",
      time_minutes := data.time_minutes.getD 0,
      price := data.price.getD 0,
      link := data.link.getD "",
      description := data.description.getD "",
      tags := [], ingredients := [] } with hr0
  set db1 : DB :=
    { db with recipes := db.recipes ++ [r0], nextRecipeId := db.nextRecipeId + 1 }
    with hdb1
  set db2 := getOrCreateTags db1 u db.nextRecipeId names with hdb2
  set db3 := getOrCreateIngredients db2 u db.nextRecipeId ings with hdb3
  have hfst : (RecipeSerializerCreate db u data).1 = db3 := rfl
  have hsnd : (RecipeSerializerCreate db u data).2 = db.nextRecipeId := rfl
  rw [hfst, hsnd]
  have hfind1 : db1.findRecipe db.nextRecipeId = some r0 := by
    rw [hdb1]
    exact findRecipe_append_fresh db r0 (db.nextRecipeId + 1)
      (fun r' hr' => Nat.ne_of_lt (hR r' hr'))
  have hTop : TagOpLE db1 db2 := tagOpLE_fold u db.nextRecipeId names db1
  have hIop : IngOpLE db2 db3 := ingOpLE_fold u db.nextRecipeId ings db2
  obtain ⟨r2, hfind2, hle2⟩ := hTop.find_some _ r0 hfind1
  obtain ⟨r3, hfind3, hle3⟩ := hIop.find_some _ r2 hfind2
  have htags_eq3 : db3.tags = db2.tags := hIop.tags_eq
  have hings_eq2 : db2.ingredients = db1.ingredients := hTop.ings_eq
  have hdb1_tags : db1.tags = db.tags := by rw [hdb1]
  have hdb1_ings : db1.ingredients = db.ingredients := by rw [hdb1]
  have hcT1 : ∀ n', countTag db1 u n' = countTag db u n' :=
    fun n' => countTag_congr hdb1_tags u n'
  have hcT3 : ∀ n', countTag db3 u n' = countTag db2 u n' :=
    fun n' => countTag_congr htags_eq3 u n'
  have hcI2 : ∀ n', countIngredient db2 u n' = countIngredient db1 u n' :=
    fun n' => countIngredient_congr hings_eq2 u n'
  have hcI1 : ∀ n', countIngredient db1 u n' = countIngredient db u n' :=
    fun n' => countIngredient_congr hdb1_ings u n'
  refine ⟨⟨r3, hfind3, ?_, ?_⟩, ?_, ?_, ?_, ?_, ?_, ?_⟩
  · rw [hle3.user_eq, hle2.user_eq, hr0]
  · rw [hle3.title_eq, hle2.title_eq, hr0]
  · intro n hn
    obtain ⟨t, ht, hu', hn', hid⟩ :=
      getOrCreateTags_attaches u db.nextRecipeId names db1 r0 hfind1 n hn
    refine ⟨t, ?_, hu', hn', ?_⟩
    · rw [htags_eq3, hdb2]
      exact ht
    · rw [recipeTagIds_ingOp hIop, hdb2]
      exact hid
  · intro n hn
    obtain ⟨i, hi, hu', hn', hid⟩ :=
      getOrCreateIngredients_attaches u db.nextRecipeId ings db2 r2 hfind2 n hn
    refine ⟨i, ?_, hu', hn', ?_⟩
    · rw [hdb3]
      exact hi
    · rw [hdb3]
      exact hid
  · intro n hn t₀ ht₀ hu₀ hn₀
    have ht₀1 : t₀ ∈ db1.tags := by
      rw [hdb1_tags]
      exact ht₀
    have huniq1 : ∀ t ∈ db1.tags, t.user = u → t.name = n → t = t₀ := by
      intro t ht htu htn
      rw [hdb1_tags] at ht
      exact hTuniq t ht t₀ ht₀ (htu.trans hu₀.symm) (htn.trans hn₀.symm)
    refine ⟨?_, ?_, ?_⟩
    · rw [htags_eq3, hdb2]
      exact hTop.tags_mono t₀ ht₀1
    · rw [recipeTagIds_ingOp hIop, hdb2]
      exact getOrCreateTags_reuses u db.nextRecipeId names db1 r0 t₀ n hfind1 ht₀1
        hu₀ hn₀ huniq1 hn
    · rw [hcT3 n, hdb2, countTag_fold u db.nextRecipeId names db1 u n]
      have hne : ¬ countTag db1 u n = 0 := by
        rw [hcT1 n]
        exact countTag_ne_zero_of_mem ht₀ hu₀ hn₀
      simp [hne, hcT1 n]
      intro _ hc0
      exact absurd ((hcT1 n).trans hc0) hne
  · intro n hn i₀ hi₀ hu₀ hn₀
    have hi₀2 : i₀ ∈ db2.ingredients := by
      rw [hings_eq2, hdb1_ings]
      exact hi₀
    have huniq2 : ∀ i ∈ db2.ingredients, i.user = u → i.name = n → i = i₀ := by
      intro i hi hiu hin
      rw [hings_eq2, hdb1_ings] at hi
      exact hIuniq i hi i₀ hi₀ (hiu.trans hu₀.symm) (hin.trans hn₀.symm)
    refine ⟨?_, ?_, ?_⟩
    · exact hIop.ings_mono i₀ hi₀2
    · rw [hdb3]
      exact getOrCreateIngredients_reuses u db.nextRecipeId ings db2 r2 i₀ n hfind2
        hi₀2 hu₀ hn₀ huniq2 hn
    · rw [hdb3, countIngredient_fold u db.nextRecipeId ings db2 u n]
      have hne : ¬ countIngredient db2 u n = 0 := by
        rw [hcI2 n, hcI1 n]
        exact countIngredient_ne_zero_of_mem hi₀ hu₀ hn₀
      simp [hne, hcI2 n, hcI1 n]
      intro _ hc0
      exact absurd (((hcI2 n).trans (hcI1 n)).trans hc0) hne
  · intro n hn hc0
    rw [hcT3 n, hdb2, countTag_fold u db.nextRecipeId names db1 u n]
    have h1 : countTag db1 u n = 0 := by
      rw [hcT1 n]
      exact hc0
    simp [h1, hn]
  · intro n hn hc0
    rw [hdb3, countIngredient_fold u db.nextRecipeId ings db2 u n]
    have h1 : countIngredient db2 u n = 0 := by
      rw [hcI2 n, hcI1 n]
      exact hc0
    simp [h1, hn]

/-- C1 witness: creating a recipe with an existing tag name (Dessert) and
a new one (Vegan) for the sample caller reuses the existing row and
creates exactly one new row. -/
theorem create_get_or_create_spec_witness :
    countTag (RecipeSerializerCreate sampleDB 0
        { title := some "Pie", tags := some ["Dessert", "Vegan"] }).1 0 "Dessert"
      = countTag sampleDB 0 "Dessert" ∧
    countTag (RecipeSerializerCreate sampleDB 0
        { title := some "Pie", tags := some ["Dessert", "Vegan"] }).1 0 "Vegan" = 1 := by
  have h := create_get_or_create_spec sampleDB 0
    { title := some "Pie", tags := some ["Dessert", "Vegan"] } _ _ (by decide) rfl
  constructor
  · exact (h.2.2.2.1 "Dessert" (by decide) ⟨0, 0, "Dessert"⟩ (by decide) rfl rfl).2.2
  · exact h.2.2.2.2.2.1 "Vegan" (by decide) (by decide)

/-- C10: creating a recipe whose nested tag or ingredient list repeats a
name leaves exactly one matching row for the caller, attached to the
recipe exactly once: get-or-create followed by the relation `add` is
idempotent in the name. -/
theorem create_duplicate_names_idempotent (db : DB) (u : Nat) (data : RecipeInput)
    (db' : DB) (rid : Nat) (hwf : db.WF)
    (heq : RecipeSerializerCreate db u data = (db', rid)) :
    (∀ n ∈ data.tags.getD [],
       countTag db' u n = 1 ∧
         ∃ t ∈ db'.tags, t.user = u ∧ t.name = n ∧
           (recipeTagIds db' rid).count t.id = 1) ∧
    (∀ n ∈ data.ingredients.getD [],
       countIngredient db' u n = 1 ∧
         ∃ i ∈ db'.ingredients, i.user = u ∧ i.name = n ∧
           (recipeIngredientIds db' rid).count i.id = 1) := by
  have hdb' : db' = (RecipeSerializerCreate db u data).1 := by rw [heq]
  have hrid : rid = (RecipeSerializerCreate db u data).2 := by rw [heq]
  subst hdb'
  subst hrid
  set names := data.tags.getD [] with hnames
  set ings := data.ingredients.getD [] with hingsdef
  set r0 : Recipe :=
    { id := db.nextRecipeId, user := u,
      title := data.title.getD "",
      time_minutes := data.time_minutes.getD 0,
      price := data.price.getD 0,
      link := data.link.getD "",
      description := data.description.getD "",
      tags := [], ingredients := [] } with hr0
  set db1 : DB :=
    { db with recipes := db.recipes ++ [r0], nextRecipeId := db.nextRecipeId + 1 }
    with hdb1
  set db2 := getOrCreateTags db1 u db.nextRecipeId names with hdb2
  set db3 := getOrCreateIngredients db2 u db.nextRecipeId ings with hdb3
  have hfst : (RecipeSerializerCreate db u data).1 = db3 := rfl
  have hsnd : (RecipeSerializerCreate db u data).2 = db.nextRecipeId := rfl
  rw [hfst, hsnd]
  have hfind1 : db1.findRecipe db.nextRecipeId = some r0 := by
    rw [hdb1]
    exact findRecipe_append_fresh db r0 (db.nextRecipeId + 1)
      (fun r' hr' => Nat.ne_of_lt (hwf.2.2.1 r' hr'))
  have hTop : TagOpLE db1 db2 := tagOpLE_fold u db.nextRecipeId names db1
  have hIop : IngOpLE db2 db3 := ingOpLE_fold u db.nextRecipeId ings db2
  obtain ⟨r2, hfind2, hle2⟩ := hTop.find_some _ r0 hfind1
  obtain ⟨r3, hfind3, hle3⟩ := hIop.find_some _ r2 hfind2
  have htags_eq3 : db3.tags = db2.tags := hIop.tags_eq
  have hings_eq2 : db2.ingredients = db1.ingredients := hTop.ings_eq
  have hdb1_tags : db1.tags = db.tags := by rw [hdb1]
  have hdb1_ings : db1.ingredients = db.ingredients := by rw [hdb1]
  have hcT1 : ∀ n', countTag db1 u n' = countTag db u n' :=
    fun n' => countTag_congr hdb1_tags u n'
  have hcT3 : ∀ n', countTag db3 u n' = countTag db2 u n' :=
    fun n' => countTag_congr htags_eq3 u n'
  have hcI2 : ∀ n', countIngredient db2 u n' = countIngredient db1 u n' :=
    fun n' => countIngredient_congr hings_eq2 u n'
  have hcI1 : ∀ n', countIngredient db1 u n' = countIngredient db u n' :=
    fun n' => countIngredient_congr hdb1_ings u n'
  have hnodupT3 : (recipeTagIds db3 db.nextRecipeId).Nodup := by
    rw [recipeTagIds_eq_of_find hfind3, hle3.tags_eq]
    exact hle2.tags_nodup List.nodup_nil
  have hnodupI3 : (recipeIngredientIds db3 db.nextRecipeId).Nodup := by
    rw [recipeIngredientIds_eq_of_find hfind3]
    refine hle3.ings_nodup ?_
    rw [hle2.ings_eq]
    exact List.nodup_nil
  constructor
  · intro n hn
    constructor
    · rw [hcT3 n, hdb2, countTag_fold u db.nextRecipeId names db1 u n, hcT1 n]
      have hle1 := countTag_le_one hwf u n
      by_cases hc : countTag db u n = 0
      · simp [hc, hn]
      · simp [hc, hn]
        omega
    · obtain ⟨t, ht, hu', hn', hid⟩ :=
        getOrCreateTags_attaches u db.nextRecipeId names db1 r0 hfind1 n hn
      refine ⟨t, ?_, hu', hn', ?_⟩
      · rw [htags_eq3, hdb2]
        exact ht
      · have hid3 : t.id ∈ recipeTagIds db3 db.nextRecipeId := by
          rw [recipeTagIds_ingOp hIop, hdb2]
          exact hid
        exact List.count_eq_one_of_mem hnodupT3 hid3
  · intro n hn
    constructor
    · rw [hdb3, countIngredient_fold u db.nextRecipeId ings db2 u n, hcI2 n, hcI1 n]
      have hle1 := countIngredient_le_one hwf u n
      by_cases hc : countIngredient db u n = 0
      · simp [hc, hn]
      · simp [hc, hn]
        omega
    · obtain ⟨i, hi, hu', hn', hid⟩ :=
        getOrCreateIngredients_attaches u db.nextRecipeId ings db2 r2 hfind2 n hn
      refine ⟨i, ?_, hu', hn', ?_⟩
      · rw [hdb3]
        exact hi
      · have hid3 : i.id ∈ recipeIngredientIds db3 db.nextRecipeId := by
          rw [hdb3]
          exact hid
        exact List.count_eq_one_of_mem hnodupI3 hid3

/-- C10 witness: a create repeating the tag name Vegan and the ingredient
name Pepper ends with exactly one matching row each. -/
theorem create_duplicate_names_idempotent_witness :
    countTag (RecipeSerializerCreate sampleDB 0
        { title := some "Stew", tags := some ["Vegan", "Vegan"],
          ingredients := some ["Pepper", "Pepper"] }).1 0 "Vegan" = 1 ∧
    countIngredient (RecipeSerializerCreate sampleDB 0
        { title := some "Stew", tags := some ["Vegan", "Vegan"],
          ingredients := some ["Pepper", "Pepper"] }).1 0 "Pepper" = 1 := by
  have h := create_duplicate_names_idempotent sampleDB 0
    { title := some "Stew", tags := some ["Vegan", "Vegan"],
      ingredients := some ["Pepper", "Pepper"] } _ _ (by decide) rfl
  exact ⟨(h.1 "Vegan" (by decide)).1, (h.2 "Pepper" (by decide)).1⟩

/-! ### Endpoint claims -/

theorem tagListEndpoint_true (db : DB) (u : Nat) :
    tagListEndpoint db u true
      = sortDescBy Tag.name
          ((db.recipes.flatMap (fun r =>
            (db.tags.filter (fun t => t.user == u)).filter
              (fun t => r.tags.contains t.id))).dedup) := rfl

theorem tagListEndpoint_false (db : DB) (u : Nat) :
    tagListEndpoint db u false
      = sortDescBy Tag.name (db.tags.filter (fun t => t.user == u)) := rfl

theorem ingredientListEndpoint_true (db : DB) (u : Nat) :
    ingredientListEndpoint db u true
      = sortDescBy Ingredient.name
          ((db.recipes.flatMap (fun r =>
            (db.ingredients.filter (fun i => i.user == u)).filter
              (fun i => r.ingredients.contains i.id))).dedup) := rfl

theorem ingredientListEndpoint_false (db : DB) (u : Nat) :
    ingredientListEndpoint db u false
      = sortDescBy Ingredient.name (db.ingredients.filter (fun i => i.user == u)) := rfl

theorem contains_iff_mem_nat (l : List Nat) (x : Nat) : l.contains x = true ↔ x ∈ l := by
  simp [List.contains, List.elem_iff]

/-- C4: (spec-modelled endpoints) every record in a tag, ingredient or
recipe list response belongs to the caller; records of other users never
appear. -/
theorem list_endpoints_owner_scoped (db : DB) (u : Nat) (b : Bool) :
    (∀ r ∈ recipeListEndpoint db u, r.user = u) ∧
    (∀ t ∈ tagListEndpoint db u b, t.user = u) ∧
    (∀ i ∈ ingredientListEndpoint db u b, i.user = u) := by
  refine ⟨?_, ?_, ?_⟩
  · intro r hr
    unfold recipeListEndpoint at hr
    rw [(sortDescBy_perm Recipe.id _).mem_iff] at hr
    have := (List.mem_filter.mp hr).2
    simpa using this
  · intro t ht
    cases b with
    | false =>
        rw [tagListEndpoint_false, (sortDescBy_perm Tag.name _).mem_iff] at ht
        have := (List.mem_filter.mp ht).2
        simpa using this
    | true =>
        rw [tagListEndpoint_true, (sortDescBy_perm Tag.name _).mem_iff,
          List.mem_dedup, List.mem_flatMap] at ht
        obtain ⟨r, _, htf⟩ := ht
        have := (List.mem_filter.mp (List.mem_filter.mp htf).1).2
        simpa using this
  · intro i hi
    cases b with
    | false =>
        rw [ingredientListEndpoint_false, (sortDescBy_perm Ingredient.name _).mem_iff] at hi
        have := (List.mem_filter.mp hi).2
        simpa using this
    | true =>
        rw [ingredientListEndpoint_true, (sortDescBy_perm Ingredient.name _).mem_iff,
          List.mem_dedup, List.mem_flatMap] at hi
        obtain ⟨r, _, hif⟩ := hi
        have := (List.mem_filter.mp (List.mem_filter.mp hif).1).2
        simpa using this

/-- C4 witness: the Dessert tag listed for the sample caller belongs to
it. -/
theorem list_endpoints_owner_scoped_witness :
    (⟨0, 0, "Dessert"⟩ : Tag).user = 0 :=
  (list_endpoints_owner_scoped sampleDB 0 false).2.1 ⟨0, 0, "Dessert"⟩ (by decide)

/-- C6: (spec-modelled endpoint) deleting a recipe owned by a different
user yields 404 and the database, the targeted recipe included, is
unchanged. -/
theorem delete_other_user_404 (db : DB) (u rid : Nat) (r : Recipe)
    (hwf : db.WF) (hr : db.findRecipe rid = some r) (hu : r.user ≠ u) :
    recipeDeleteEndpoint db u rid = (404, db) := by
  have hmem : r ∈ db.recipes := by
    unfold DB.findRecipe at hr
    exact List.mem_of_find?_eq_some hr
  have hid : r.id = rid := findRecipe_id hr
  have hnone : db.recipes.find? (fun x => x.id == rid && x.user == u) = none := by
    rw [List.find?_eq_none]
    intro x hx
    simp only [Bool.and_eq_true, beq_iff_eq, not_and]
    intro hxid hxu
    have hxr : x = r := hwf.2.2.2.2.2.1 x hx r hmem (hxid.trans hid.symm)
    rw [hxr] at hxu
    exact hu hxu
  unfold recipeDeleteEndpoint
  rw [hnone]

/-- C6 witness: the sample caller deleting the other user's recipe gets
404 and the database is untouched. -/
theorem delete_other_user_404_witness :
    recipeDeleteEndpoint sampleDB 0 1 = (404, sampleDB) :=
  delete_other_user_404 sampleDB 0 1
    { id := 1, user := 1, title := "Cake", time_minutes := 40, price := 12,
      link := "", description := "sweet", tags := [1], ingredients := [] }
    (by decide) (by decide) (by decide)

/-- C7: (spec-modelled endpoints) the assigned-only listing contains
exactly the caller's tags and ingredients referenced by at least one
recipe, each at most once even when referenced by several recipes. -/
theorem assigned_only_filter_spec (db : DB) (u : Nat) :
    (∀ t : Tag, t ∈ tagListEndpoint db u true ↔
       t ∈ db.tags ∧ t.user = u ∧ ∃ r ∈ db.recipes, t.id ∈ r.tags) ∧
    (∀ t : Tag, (tagListEndpoint db u true).count t ≤ 1) ∧
    (∀ i : Ingredient, i ∈ ingredientListEndpoint db u true ↔
       i ∈ db.ingredients ∧ i.user = u ∧ ∃ r ∈ db.recipes, i.id ∈ r.ingredients) ∧
    (∀ i : Ingredient, (ingredientListEndpoint db u true).count i ≤ 1) := by
  refine ⟨?_, ?_, ?_, ?_⟩
  · intro t
    rw [tagListEndpoint_true, (sortDescBy_perm Tag.name _).mem_iff, List.mem_dedup,
      List.mem_flatMap]
    constructor
    · rintro ⟨r, hrmem, htf⟩
      obtain ⟨hown, hcont⟩ := List.mem_filter.mp htf
      obtain ⟨htags, huser⟩ := List.mem_filter.mp hown
      exact ⟨htags, by simpa using huser, r, hrmem,
        (contains_iff_mem_nat r.tags t.id).mp hcont⟩
    · rintro ⟨htags, huser, r, hrmem, hidmem⟩
      refine ⟨r, hrmem, List.mem_filter.mpr ⟨List.mem_filter.mpr ⟨htags, ?_⟩, ?_⟩⟩
      · simpa using huser
      · exact (contains_iff_mem_nat r.tags t.id).mpr hidmem
  · intro t
    rw [tagListEndpoint_true, (sortDescBy_perm Tag.name _).count_eq]
    exact List.nodup_iff_count_le_one.mp (List.nodup_dedup _) t
  · intro i
    rw [ingredientListEndpoint_true, (sortDescBy_perm Ingredient.name _).mem_iff,
      List.mem_dedup, List.mem_flatMap]
    constructor
    · rintro ⟨r, hrmem, hif⟩
      obtain ⟨hown, hcont⟩ := List.mem_filter.mp hif
      obtain ⟨hings, huser⟩ := List.mem_filter.mp hown
      exact ⟨hings, by simpa using huser, r, hrmem,
        (contains_iff_mem_nat r.ingredients i.id).mp hcont⟩
    · rintro ⟨hings, huser, r, hrmem, hidmem⟩
      refine ⟨r, hrmem, List.mem_filter.mpr ⟨List.mem_filter.mpr ⟨hings, ?_⟩, ?_⟩⟩
      · simpa using huser
      · exact (contains_iff_mem_nat r.ingredients i.id).mpr hidmem
  · intro i
    rw [ingredientListEndpoint_true, (sortDescBy_perm Ingredient.name _).count_eq]
    exact List.nodup_iff_count_le_one.mp (List.nodup_dedup _) i

/-- C7 witness: the assigned Dessert tag appears in the filtered sample
listing; the unassigned case and the at-most-once bound follow from the
same theorem. -/
theorem assigned_only_filter_spec_witness :
    (⟨0, 0, "Dessert"⟩ : Tag) ∈ tagListEndpoint sampleDB 0 true ∧
      (tagListEndpoint sampleDB 0 true).count ⟨0, 0, "Dessert"⟩ ≤ 1 :=
  ⟨((assigned_only_filter_spec sampleDB 0).1 ⟨0, 0, "Dessert"⟩).mpr (by decide),
    (assigned_only_filter_spec sampleDB 0).2.1 ⟨0, 0, "Dessert"⟩⟩

/-- C8: the detail representation extends the list representation by
exactly the long-form description field: the list representation omits
the description key, the detail representation carries it, and the two
agree on every other field. -/
theorem detail_vs_list_representation (r : Recipe) :
    RecipeDetailsSerializerRepresentation r
      = RecipeSerializerRepresentation r ++ [("description", r.description)] ∧
    (RecipeSerializerRepresentation r).lookup "description" = none ∧
    (RecipeDetailsSerializerRepresentation r).lookup "description"
      = some r.description :=
  ⟨rfl, rfl, rfl⟩
